import Mathlib

/-!
# Verification of the Audacity `Registry` component

Shallow embedding of `src/libraries/lib-registries/Registry.h`: the item
model (`BaseItem` variants `SingleItem` / `GroupItem` / `IndirectItem` /
`ComputedItem`), the ordering hints, the registrar (`RegisterItem`,
`RegisteredItem`) and the merge/visit algorithm (`Visit`).

Only the header is present in the repository snapshot; the function bodies
of `RegisterItem`, `Visit` and `GroupItemBase::GetOrdering` live in a
`Registry.cpp` that is not in the snapshot.  Definitions for those are
therefore modelled from the specification (marked `Modelled from the
spec:`), while everything that is inline in the header — the
`OrderingHint` structure and its comparison operators, `push_back`, the
`RegisteredItem` constructor, `Placement` — is translated directly from
the source.
-/

namespace Registry

/-- `OrderingHint::Type` from Registry.h: `Before, After, Begin, End,
Unspecified` (in this declaration order, so with these numeric values). -/
inductive HintType where
  | Before
  | After
  | Begin
  | End
  | Unspecified
deriving DecidableEq

/-- The numeric value of the C++ enum `OrderingHint::Type`
(`Before = 0, After = 1, Begin = 2, End = 3, Unspecified = 4`). -/
def HintType.code : HintType → Nat
  | .Before => 0
  | .After => 1
  | .Begin => 2
  | .End => 3
  | .Unspecified => 4

/-- `Registry::OrderingHint`: a type tag plus a name that is significant
only when the type is `Before` or `After`. -/
structure OrderingHint where
  type : HintType := .Unspecified
  name : String := ""
deriving DecidableEq

/-- Lexicographic order on character sequences: the `wxString`
`operator<` used inside `OrderingHint::operator<`. -/
def charsLt : List Char → List Char → Bool
  | [], [] => false
  | [], _ :: _ => true
  | _ :: _, [] => false
  | a :: as, b :: bs =>
    if a.val < b.val then true
    else if b.val < a.val then false
    else charsLt as bs

/-- String comparison, lexicographic on the character sequence. -/
def strLt (a b : String) : Bool :=
  charsLt a.data b.data

/-- `OrderingHint::operator<`:
`std::make_pair(type, name) < std::make_pair(other.type, other.name)`,
i.e. lexicographic on (enum value, name).  The source comments
"This sorts unspecified placements later". -/
def OrderingHint.lt (a b : OrderingHint) : Bool :=
  a.type.code < b.type.code ||
    (a.type.code == b.type.code && strLt a.name b.name)

/-- The default-constructed hint (`type{ Unspecified }`, empty name). -/
def unspecifiedHint : OrderingHint := ⟨.Unspecified, ""⟩

/-- `GroupItemBase::Ordering`: treatment of a group's children when
merging trees (`Anonymous`, `Weak`, `Strong`). -/
inductive GroupOrdering where
  | Anonymous
  | Weak
  | Strong
deriving DecidableEq

/-- `GroupItemBase::GetOrdering` is virtual; subclasses may override it.
A group carries `some o` when it overrides, `none` when it does not, and
this function applies the header's documented default ("Default
implementation returns Strong"). -/
def getOrdering (override : Option GroupOrdering) : GroupOrdering :=
  override.getD .Strong

/-- Items in "computed-free normal form": the closed set of `BaseItem`
variants minus `ComputedItem`.  Used as the return type of computed-item
factories (`Factory` returns a description of an item; the model requires
the returned subtree to be free of further `ComputedItem`s, which is what
every factory in the code base produces and what keeps the visitation
well founded). -/
inductive CFItem where
  /-- `SingleItem`: terminal item with a name. -/
  | single (name : String) (hint : OrderingHint)
  /-- A `GroupItem` with name, hint, optional `GetOrdering` override and
  owned children. -/
  | group (name : String) (hint : OrderingHint)
      (override : Option GroupOrdering) (children : List CFItem)
  /-- `IndirectItem`: delegates to the referenced item; its own name is
  empty, only the hint matters. -/
  | indirect (hint : OrderingHint) (ptr : CFItem)

/-- The full `BaseItem` variant set, `ComputedItem` included.  A
`ComputedItem` holds a factory that is invoked anew on each visit; the
`Nat` argument stands for the visitation instant (the ambient state a
C++ factory can observe through its captures), and a `none` result means
"contributes nothing this time". -/
inductive BaseItem where
  | single (name : String) (hint : OrderingHint)
  | group (name : String) (hint : OrderingHint)
      (override : Option GroupOrdering) (children : List BaseItem)
  | indirect (hint : OrderingHint) (ptr : BaseItem)
  | computed (hint : OrderingHint) (factory : Nat → Option CFItem)

/-- The `name` field of a `BaseItem`; empty for indirect and computed
items (both are constructed with `wxEmptyString`). -/
def BaseItem.nameOf : BaseItem → String
  | .single n _ => n
  | .group n _ _ _ => n
  | .indirect _ _ => ""
  | .computed _ _ => ""

/-- The `orderingHint` field of a `BaseItem`. -/
def BaseItem.hintOf : BaseItem → OrderingHint
  | .single _ h => h
  | .group _ h _ _ => h
  | .indirect h _ => h
  | .computed h _ => h

/-- Overwrite the `orderingHint` field of a `BaseItem`. -/
def BaseItem.setHint (h : OrderingHint) : BaseItem → BaseItem
  | .single n _ => .single n h
  | .group n _ o c => .group n h o c
  | .indirect _ p => .indirect h p
  | .computed _ f => .computed h f

/-- The `orderingHint` field of a `CFItem`. -/
def CFItem.hintOf : CFItem → OrderingHint
  | .single _ h => h
  | .group _ h _ _ => h
  | .indirect h _ => h

/-- Overwrite the `orderingHint` field of a `CFItem`. -/
def CFItem.setHint (h : OrderingHint) : CFItem → CFItem
  | .single n _ => .single n h
  | .group n _ o c => .group n h o c
  | .indirect _ p => .indirect h p

/-- Hint delegation, per the header comment on `OrderingHint`: "in case
the item is delegated to (by an IndirectItem, ComputedItem, or anonymous
group), the delegating item's hint will be used instead" of an
`Unspecified` hint. -/
def delegate (outer : OrderingHint) (c : CFItem) : CFItem :=
  if c.hintOf.type == .Unspecified then c.setHint outer else c

/-- The effective hint of an item whose own hint is `inner` when it is
delegated to by an item carrying hint `outer`. -/
def effHint (outer inner : OrderingHint) : OrderingHint :=
  if inner.type == .Unspecified then outer else inner

mutual

/-- Modelled from the spec: one `Visit` call evaluates every
`ComputedItem` factory afresh (§4.3 step 4; the factory result replaces
the `ComputedItem`, a null result contributes nothing, and an
`IndirectItem` is dereferenced), producing a computed-free tree for the
visitation instant `t`.  Hint delegation is applied when a wrapper is
replaced by its referent. -/
def expand (t : Nat) : BaseItem → Option CFItem
  | .single n h => some (.single n h)
  | .group n h o ch => some (.group n h o (expandList t ch))
  | .indirect h p => (expand t p).map (delegate h)
  | .computed h f => (f t).map (delegate h)

/-- Expansion of a child list; children whose factory contributed
nothing are dropped. -/
def expandList (t : Nat) : List BaseItem → List CFItem
  | [] => []
  | c :: cs =>
    match expand t c with
    | none => expandList t cs
    | some x => x :: expandList t cs

end

/-- The resolved payload of a merged child-list entry: either a terminal
item or a (non-anonymous) group together with its ordering mode and the
child items collected from every tree that contributed to it. -/
inductive Payload where
  | leaf
  | group (ordering : GroupOrdering) (children : List CFItem)

/-- One candidate in a merged child list: resolved name, effective
ordering hint, payload. -/
structure Entry where
  name : String
  hint : OrderingHint
  payload : Payload

mutual

/-- Modelled from the spec: the collection step of the merge (§4.3 step
2 together with the `Anonymous` rule of §3): a `SingleItem` or a named
(`Weak`/`Strong`) group becomes one candidate; an anonymous group's
children "merge individually into the parent's sequence", i.e. are
collected in place of the group, with the group's hint delegated to
children whose own hint is `Unspecified`; an `IndirectItem` is replaced
by its referent, delegating likewise.  `outer` is the hint delegated
from the enclosing wrapper. -/
def collectOne : OrderingHint → CFItem → List Entry
  | outer, .single n h => [⟨n, effHint outer h, .leaf⟩]
  | outer, .group n h o ch =>
    if getOrdering o == .Anonymous then
      collectMany (effHint outer h) ch
    else
      [⟨n, effHint outer h, .group (getOrdering o) ch⟩]
  | outer, .indirect h p => collectOne (effHint outer h) p

/-- Collect each item of a child list in turn, delegating `outer`. -/
def collectMany : OrderingHint → List CFItem → List Entry
  | _, [] => []
  | outer, c :: cs => collectOne outer c ++ collectMany outer cs

end

/-- Collect a whole child list (no delegating wrapper at top level, so
the delegated hint is the default `Unspecified` one, which leaves every
item's own hint in force). -/
def collectList (items : List CFItem) : List Entry :=
  collectMany unspecifiedHint items

/-- The merge diagnostics (§7): all recoverable, none aborts the visit. -/
inductive Diag where
  /-- A path segment names an existing child that is not a group. -/
  | pathConflict (name : String)
  /-- Two `Strong` groups claim the same path. -/
  | orderingConflict (name : String)
  /-- A `Before`/`After` hint whose anchor could not be honored. -/
  | unsatisfiedHint (name : String)
deriving DecidableEq

/-- The stronger of two group ordering modes (`Strong` > `Weak`;
`Anonymous` never reaches the merge since anonymous groups are collected
away). -/
def strongerOf (a b : GroupOrdering) : GroupOrdering :=
  if a == .Strong || b == .Strong then .Strong
  else if a == .Weak || b == .Weak then .Weak
  else .Anonymous

/-- Modelled from the spec: a same-named candidate met again "is treated
as the same logical node — if both are groups, recurse and merge their
children too; conflicting `Ordering` modes are resolved by the stronger
mode, and if both sides claim `Strong` ... this is reported as an error
and one side (default-tree) wins deterministically" (§4.3 step 2); a
name collision between a group and a non-group is a `PathConflict`.
`a` is the earlier (default-tree-side) candidate and wins conflicts. -/
def mergeTwo (a b : Entry) : Entry × List Diag :=
  match a.payload, b.payload with
  | .group oa cha, .group ob chb =>
    if oa == .Strong && ob == .Strong then
      (a, [.orderingConflict a.name])
    else
      ({ a with payload := .group (strongerOf oa ob) (cha ++ chb) }, [])
  | .leaf, .leaf => (a, [])
  | _, _ => (a, [.pathConflict a.name])

/-- Merge one new candidate into the accumulated list, matching by name
against the first same-named candidate if any. -/
def mergeOne : List Entry → Entry → List Entry × List Diag
  | [], e => ([e], [])
  | x :: xs, e =>
    if x.name == e.name then
      let (m, d) := mergeTwo x e
      (m :: xs, d)
    else
      let (r, d) := mergeOne xs e
      (x :: r, d)

/-- Fold `mergeOne` over the collected candidates: the result has one
entry per distinct name, at the position of the name's first occurrence
(so default-tree candidates, which are collected first, keep their
authored positions). -/
def dedupInto (acc : List Entry) : List Entry → List Entry × List Diag
  | [] => (acc, [])
  | e :: rest =>
    let (acc1, d1) := mergeOne acc e
    let (res, d2) := dedupInto acc1 rest
    (res, d1 ++ d2)

/-- Merge all same-named candidates of a collected child list. -/
def dedupMerge (l : List Entry) : List Entry × List Diag :=
  dedupInto [] l

/-- Stable insertion into a list sorted by `OrderingHint.lt`: the new
element goes before the first element that is not strictly below it, so
earlier input elements stay first among equals. -/
def hintInsert (e : Entry) : List Entry → List Entry
  | [] => [e]
  | x :: xs => if OrderingHint.lt x.hint e.hint then x :: hintInsert e xs else e :: x :: xs

/-- The processing order of the `Before`/`After` placement passes: a
stable sort by the source `OrderingHint::operator<` (which orders
`Before, After, Begin, End, Unspecified`; its comment "This sorts
unspecified placements later" fixes this processing order only, not the
final placement of tied `End`/`Unspecified` items, which `computeOrder`
pins per spec section 4.3 with `End` after `Unspecified`). -/
def sortByHint : List Entry → List Entry
  | [] => []
  | e :: rest => hintInsert e (sortByHint rest)

/-- Whether an entry carries an explicit `Before`/`After` hint. -/
def isBA (e : Entry) : Bool :=
  e.hint.type == .Before || e.hint.type == .After

/-- Length of the leading run of `Begin`-hinted entries: new
`Begin`-hinted items are inserted right after it, so `Begin` items float
to the front yet keep their relative computed order. -/
def leadingBegins : List Entry → Nat
  | [] => 0
  | e :: rest => if e.hint.type == .Begin then leadingBegins rest + 1 else 0

/-- Modelled from the spec: place one `Begin`/`End`/`Unspecified`-hinted
new item — "`Begin`-hinted items at the front, in their relative
computed order; all others keep computed order" (§4.3 step 3), i.e.
`Begin` inserts at the end of the leading `Begin` run and everything
else appends at the back. -/
def placeOne (placed : List Entry) (e : Entry) : List Entry :=
  if e.hint.type == .Begin then placed.insertIdx (leadingBegins placed) e
  else placed ++ [e]

/-- Modelled from the spec: try to place one `Before(X)`/`After(X)`-hinted
new item next to its anchor `X` — "Apply `Before`/`After` hints as
local order constraints ... when the named anchor is present in the same
child list; unsatisfiable or self-referential hints are ignored" (§4.3
step 3).  Returns `none` when the anchor is not present yet (the item is
retried on a later pass) or the hint names the item itself. -/
def tryPlace (placed : List Entry) (e : Entry) : Option (List Entry) :=
  if e.hint.name == e.name then none
  else
    match placed.findIdx? (fun p => p.name == e.hint.name) with
    | none => none
    | some i =>
      match e.hint.type with
      | .Before => some (placed.insertIdx i e)
      | .After => some (placed.insertIdx (i + 1) e)
      | _ => none

/-- One pass over the not-yet-placed `Before`/`After` items: place those
whose anchor is present, keep the rest (in order) for the next pass. -/
def placePass (placed : List Entry) : List Entry → List Entry × List Entry
  | [] => (placed, [])
  | e :: rest =>
    match tryPlace placed e with
    | some p1 => placePass p1 rest
    | none =>
      let (p1, un) := placePass placed rest
      (p1, e :: un)

theorem placePass_snd_length (placed : List Entry) (l : List Entry) :
    (placePass placed l).2.length ≤ l.length := by
  induction l generalizing placed with
  | nil => simp [placePass]
  | cons e rest ih =>
    simp only [placePass]
    cases tryPlace placed e with
    | some p1 => simpa [placePass] using Nat.le_succ_of_le (ih p1)
    | none => simpa [placePass] using ih placed

/-- Modelled from the spec: repeated passes place every
`Before`/`After`-hinted new item; when a whole pass makes no progress
(the remaining hints are unsatisfiable — absent anchors, cycles — and
are "ignored (not errors)" apart from a diagnostic, §4.3 step 3 / §7),
the first remaining item is appended at the back and the passes
continue. -/
def placeBAF : Nat → List Entry → List Entry → List Diag →
    List Entry × List Diag
  | _, placed, [], diags => (placed, diags)
  | 0, placed, news, diags =>
    (placed ++ news, diags ++ news.map (fun e => .unsatisfiedHint e.name))
  | fuel + 1, placed, e :: rest, diags =>
    let pr := placePass placed (e :: rest)
    if pr.2.length < (e :: rest).length then
      placeBAF fuel pr.1 pr.2 diags
    else
      match pr.2 with
      | [] => (pr.1, diags)
      | f :: frest =>
        placeBAF fuel (pr.1 ++ [f]) frest (diags ++ [.unsatisfiedHint f.name])

/-- The passes of `placeBAF`, started with enough fuel: every round
either places at least one item or forces one, so `news.length` rounds
always finish the list and the fuel-exhausted clause is never taken. -/
def placeBA (placed news : List Entry) (diags : List Diag) :
    List Entry × List Diag :=
  placeBAF news.length placed news diags

/-- Seed the order from the stored name list: for each stored name in
turn, append the candidate so named (once), skipping names with no
candidate. -/
def seedFoldAux (entries : List Entry) : List Entry → List String → List Entry
  | acc, [] => acc
  | acc, n :: rest =>
    match entries.find? (fun e => e.name == n) with
    | some e =>
      if acc.any (fun p => p.name == e.name) then seedFoldAux entries acc rest
      else seedFoldAux entries (acc ++ [e]) rest
    | none => seedFoldAux entries acc rest

/-- Modelled from the spec: whether a `Before`/`After` hint holds in a
final child list — the hinted item and its anchor are both present and
on the required sides of each other (spec sections 4.3 and 7). -/
def hintSatisfied (l : List Entry) (e : Entry) : Bool :=
  match l.findIdx? (fun p => p.name == e.name),
      l.findIdx? (fun p => p.name == e.hint.name) with
  | some i, some j =>
    if e.hint.type == .Before then decide (i < j) else decide (j < i)
  | _, _ => false

/-- Modelled from the spec: the final order of a merged child list
(section 4.3 step 3).  Candidates named in the stored order are seeded
first, in stored order: the stored order is the default ranking key and
is kept even for hinted seeded candidates, because section 8's
stability property makes the recorded order authoritative and section 9
leaves the stored-versus-hint conflict open, asking that residual
ambiguity be flagged rather than guessed.  New `Begin`-hinted
candidates are placed at the front in candidate order; the other new
normal candidates are appended, `End`-hinted ones pinned after
`Unspecified` ones when otherwise tied (section 4.3); new
`Before`/`After` candidates are applied as local order constraints on
top by the `placeBA` passes, processed in the source comparator's
order.  Seeded candidates' `Before`/`After` hints are applied as
checks on the final order: each violated or unanchored one is flagged
with an `unsatisfiedHint` diagnostic instead of being silently
dropped. -/
def computeOrder (stored : List String) (entries : List Entry) :
    List Entry × List Diag :=
  let placed0 := seedFoldAux entries [] stored
  let news := entries.filter (fun e => !stored.contains e.name)
  let placed1 :=
    (news.filter (fun e => e.hint.type == .Begin)).foldl placeOne placed0
  let placed2 := placed1 ++ news.filter (fun e => e.hint.type == .Unspecified)
    ++ news.filter (fun e => e.hint.type == .End)
  let r := placeBA placed2 (sortByHint (news.filter isBA)) []
  let flags := ((entries.filter (fun e => stored.contains e.name)).filter
      (fun e => isBA e && !hintSatisfied r.1 e)).map
    (fun e => Diag.unsatisfiedHint e.name)
  (r.1, r.2 ++ flags)

/-- Modelled from the spec: the Ordering Preference Store (§4.4), a
key-value map from a registry path to the ordered list of child
identifiers recorded the first time the path was ordered. -/
structure Store where
  entries : List (List String × List String)

/-- `get(path)`: the recorded order for a path, if any. -/
def Store.get (s : Store) (k : List String) : Option (List String) :=
  (s.entries.find? (fun p => p.1 == k)).map (·.2)

/-- `set(path, order)`: record an order for a path, replacing any
previous record. -/
def Store.set (s : Store) (k : List String) (v : List String) : Store :=
  ⟨(k, v) :: s.entries.filter (fun p => !(p.1 == k))⟩

/-- The store with no recorded orders. -/
def emptyStore : Store := ⟨[]⟩

/-- The callbacks of `Registry::Visitor` (`BeginGroup`, `EndGroup`,
`Visit`), recorded with the item name and the path of the enclosing
groups ("The supplied path does not include the name of the item"). -/
inductive Event where
  | beginGroup (name : String) (path : List String)
  | endGroup (name : String) (path : List String)
  | visit (name : String) (path : List String)
deriving DecidableEq

/-- Whether the merged child list contains a name absent from the stored
order (used for the §4.3 step-3 record condition: "Record (persist) the
resulting order for this path if it was previously unknown or has
gained new items"). -/
def hasNewNames (stored : Option (List String)) (merged : List Entry) : Bool :=
  stored.isNone || merged.any (fun e => !(stored.getD []).contains e.name)

/-- Walk one ordered merged child list: `Visit` for leaves,
`BeginGroup` / recurse via `f` / `EndGroup` for groups (`f` is the
visitation of the next level down). -/
def visitEntries
    (f : Store → List String → List CFItem → List Event × Store × List Diag)
    (path : List String) : Store → List Entry →
    List Event × Store × List Diag
  | s, [] => ([], s, [])
  | s, e :: rest =>
    match e.payload with
    | .leaf =>
      let (ev, s1, d) := visitEntries f path s rest
      (.visit e.name path :: ev, s1, d)
    | .group _ ch =>
      let (ev1, s1, d1) := f s (path ++ [e.name]) ch
      let (ev2, s2, d2) := visitEntries f path s1 rest
      (.beginGroup e.name path :: ev1 ++ .endGroup e.name path :: ev2,
        s2, d1 ++ d2)

/-- The merged (deduplicated) candidate list of one level. -/
def mergedOf (items : List CFItem) : List Entry :=
  (dedupMerge (collectList items)).1

/-- The final order of one level, computed against the stored order for
the path. -/
def orderedOf (s : Store) (path : List String) (items : List CFItem) :
    List Entry :=
  (computeOrder ((s.get path).getD []) (mergedOf items)).1

/-- The §4.3 step-3 record side effect: persist the resulting order when
the path was previously unknown or has gained new items. -/
def recordStep (s : Store) (path : List String) (items : List CFItem) :
    Store :=
  if hasNewNames (s.get path) (mergedOf items) then
    s.set path ((orderedOf s path items).map (·.name))
  else s

/-- The diagnostics of one level's merge and ordering. -/
def levelDiags (s : Store) (path : List String) (items : List CFItem) :
    List Diag :=
  (dedupMerge (collectList items)).2 ++
    (computeOrder ((s.get path).getD []) (mergedOf items)).2

/-- Modelled from the spec: one level of the merge/visit (§4.3).  The
items of every tree contributing at this path are collected, merged by
name, ordered against the stored order, the resulting order is recorded
when the path is new or gained items, and the ordered entries are walked.
`fuel` bounds the group-nesting depth (the wrapper `Visit` passes a
depth of the tree, so the bound is never hit). -/
def visitLevel : Nat → Store → List String → List CFItem →
    List Event × Store × List Diag
  | 0, s, _, _ => ([], s, [])
  | fuel + 1, s, path, items =>
    let r := visitEntries (visitLevel fuel) path (recordStep s path items)
      (orderedOf s path items)
    (r.1, r.2.1, levelDiags s path items ++ r.2.2)

mutual

/-- Nesting depth of a computed-free item (anonymous groups included, so
it over-approximates the number of named levels). -/
def cfDepth : CFItem → Nat
  | .single _ _ => 1
  | .group _ _ _ ch => 1 + cfDepthList ch
  | .indirect _ p => cfDepth p + 1

/-- The maximum depth over a child list. -/
def cfDepthList : List CFItem → Nat
  | [] => 0
  | c :: cs => max (cfDepth c) (cfDepthList cs)

end

/-- Enough visitation fuel for a list of computed-free trees. -/
def levelFuel (l : List CFItem) : Nat :=
  1 + cfDepthList l

/-- Modelled from the spec: `Registry::Visit(visitor, pTopItem,
pRegistry)` — the top-down visitation of the tree rooted in the default
tree, merged with the registry tree, rooted logically at the same top
(§4.3).  Each call first evaluates every `ComputedItem` factory at the
visitation instant `t` (step 4), then merges and walks; default-tree
children are collected before registry children at every path.  Returns
the callback sequence, the updated ordering-preference store and the
diagnostics. -/
def Visit (t : Nat) (s : Store) (defaultItems registryItems : List BaseItem) :
    List Event × Store × List Diag :=
  let l := expandList t defaultItems ++ expandList t registryItems
  visitLevel (levelFuel l) s [] l

/-- `Registry::Placement`: a `/`-separated path plus an ordering hint
(`OrderingHint hint` defaults to the `Unspecified` hint). -/
structure Placement where
  path : String
  hint : OrderingHint := unspecifiedHint

/-- Split a `/`-separated registry path into its segments. -/
def splitAux : List Char → List Char → List String
  | [], acc => [String.mk acc.reverse]
  | c :: rest, acc =>
    if c = '/' then String.mk acc.reverse :: splitAux rest []
    else splitAux rest (c :: acc)

/-- Path segments of a `Placement` path ("blank or start with / and not
end with /": empty segments are dropped). -/
def splitPath (s : String) : List String :=
  (splitAux s.data []).filter (fun seg => !(seg == ""))

/-- Find the first child named `seg` and update its child list with
`f`; create an `Anonymous` placeholder group (updated from empty) when
no child has the name; report a `PathConflict` when the first child so
named is not a group. -/
def updateChild (seg : String)
    (f : List BaseItem → List BaseItem × List Diag) :
    List BaseItem → List BaseItem × List Diag
  | [] =>
    let (sub, d) := f []
    ([.group seg unspecifiedHint (some .Anonymous) sub], d)
  | c :: siblings =>
    if c.nameOf == seg then
      match c with
      | .group n gh go gch =>
        let (sub, d) := f gch
        (.group n gh go sub :: siblings, d)
      | _ => (c :: siblings, [.pathConflict seg])
    else
      let (r, d) := updateChild seg f siblings
      (c :: r, d)

/-- Modelled from the spec: the path-resolution and append step of
`RegisterItem` (§4.2): resolve the path component-by-component, creating
intermediate `Anonymous` groups on demand; report a `PathConflict` (and
do not register) when a path segment names an existing child that is not
a group; at the resolved group, apply the placement hint to the item —
"overwriting any hint the item already carried" — and append it
(`GroupItemBase::push_back`, which is `items.push_back` in the header).
Children of the registry group are updated in place. -/
def registerPath : List String → OrderingHint → BaseItem → List BaseItem →
    List BaseItem × List Diag
  | [], hint, item => fun children => (children ++ [item.setHint hint], [])
  | seg :: rest, hint, item => updateChild seg (registerPath rest hint item)

/-- `Registry::RegisterItem(registry, placement, pItem)`: put one more
item into the registry group, under the placement's path and hint.  The
registry group is represented by its child list. -/
def RegisterItem (registry : List BaseItem) (placement : Placement)
    (pItem : BaseItem) : List BaseItem × List Diag :=
  registerPath (splitPath placement.path) placement.hint pItem registry

/-- The `RegisteredItem` constructor from the header:
`if (pItem) RegisterItem(RegistryClass::Registry(), placement,
std::move(pItem));` — a null item registers nothing. -/
def RegisteredItem (registry : List BaseItem) (placement : Placement)
    (pItem : Option BaseItem) : List BaseItem × List Diag :=
  match pItem with
  | none => (registry, [])
  | some item => RegisterItem registry placement item

/-- Find the first child named `seg` and look inside it with `f`. -/
def lookupChild (seg : String) (f : List BaseItem → Option (List BaseItem)) :
    List BaseItem → Option (List BaseItem)
  | [] => none
  | c :: siblings =>
    if c.nameOf == seg then
      match c with
      | .group _ _ _ gch => f gch
      | _ => none
    else
      lookupChild seg f siblings

/-- Resolve a path to the child list of the group it denotes, with the
same first-match-by-name semantics as `registerPath`, creating
nothing. -/
def lookupPath : List String → List BaseItem → Option (List BaseItem)
  | [] => fun children => some children
  | seg :: rest => lookupChild seg (lookupPath rest)

/-- The state visible across one `Visit` call: both trees and the
ordering-preference store. -/
structure SysState where
  defaultTree : List BaseItem
  registryTree : List BaseItem
  store : Store

/-- One `Visit` call on the whole state: only the store component can
change ("neither given tree is modified", Registry.h). -/
def visitCall (s : SysState) (t : Nat) : List Event × SysState × List Diag :=
  let (ev, s1, d) := Visit t s.store s.defaultTree s.registryTree
  (ev, { s with store := s1 }, d)

/-- `x` occurs before some occurrence of `y` in `l`. -/
def Precedes (x y : Entry) (l : List Entry) : Prop :=
  ∃ l1 l2, l = l1 ++ x :: l2 ∧ y ∈ l2

/-! ## Theorems -/

/-- C10: constructing a `RegisteredItem` with a null item pointer is a
safe no-op — `RegisterItem` is not called, the registry is unchanged and
no diagnostic is raised — and with a non-null pointer it registers the
item, i.e. registration occurs if and only if the pointer is non-null. -/
theorem registeredItem_null_noop (registry : List BaseItem)
    (placement : Placement) :
    RegisteredItem registry placement none = (registry, []) ∧
    ∀ item : BaseItem,
      RegisteredItem registry placement (some item) =
        RegisterItem registry placement item :=
  ⟨rfl, fun _ => rfl⟩

/-- C9: a group that does not override `GetOrdering` gets the default
`Strong` mode; consequently the collection step records it as a `Strong`
group and two such groups meeting at one path produce a Strong-ordering
conflict in the merge. -/
theorem getOrdering_default_strong :
    getOrdering none = .Strong ∧
    (∀ (outer : OrderingHint) (n : String) (h : OrderingHint)
        (ch : List CFItem),
      collectOne outer (.group n h none ch) =
        [⟨n, effHint outer h, .group .Strong ch⟩]) ∧
    (∀ (n : String) (h1 h2 : OrderingHint) (ch1 ch2 : List CFItem),
      (dedupMerge [⟨n, h1, .group (getOrdering none) ch1⟩,
          ⟨n, h2, .group (getOrdering none) ch2⟩]).2 =
        [.orderingConflict n]) := by
  refine ⟨rfl, fun outer n h ch => ?_, fun n h1 h2 ch1 ch2 => ?_⟩
  · simp [collectOne, getOrdering]
  · simp [dedupMerge, dedupInto, mergeOne, mergeTwo, getOrdering]

/-- C8: a `Visit` call leaves both the default tree and the registry
tree unchanged; the only state it may change is the
ordering-preference store. -/
theorem visit_no_tree_mutation (s : SysState) (t : Nat) :
    (visitCall s t).2.1.defaultTree = s.defaultTree ∧
    (visitCall s t).2.1.registryTree = s.registryTree :=
  ⟨rfl, rfl⟩

/-- C4: two `Strong` groups meeting at the same path do not abort the
merge: the merged child list keeps exactly the earlier (default-tree)
group with its own children — one deterministic winner — and the
conflict is reported as an `OrderingConflict` diagnostic; a full `Visit`
over two such trees completes, emits only the winner's children and
returns that single diagnostic. -/
theorem strong_conflict_tolerance (n a b : String) (h1 h2 : OrderingHint)
    (ch1 ch2 : List CFItem) :
    dedupMerge [⟨n, h1, .group .Strong ch1⟩, ⟨n, h2, .group .Strong ch2⟩] =
      ([⟨n, h1, .group .Strong ch1⟩], [.orderingConflict n]) ∧
    (Visit 0 emptyStore
        [.group n unspecifiedHint none [.single a unspecifiedHint]]
        [.group n unspecifiedHint none [.single b unspecifiedHint]]).1 =
      [.beginGroup n [], .visit a [n], .endGroup n []] ∧
    (Visit 0 emptyStore
        [.group n unspecifiedHint none [.single a unspecifiedHint]]
        [.group n unspecifiedHint none [.single b unspecifiedHint]]).2.2 =
      [.orderingConflict n] := by
  refine ⟨?_, ?_, ?_⟩ <;>
  simp [dedupMerge, dedupInto, mergeOne, mergeTwo, Visit, expand, expandList, delegate,
    CFItem.hintOf, CFItem.setHint, levelFuel, cfDepth, cfDepthList, visitLevel,
    visitEntries, mergedOf, orderedOf, recordStep, levelDiags, collectList, collectOne,
    collectMany, getOrdering, effHint, Store.get,
    Store.set, emptyStore, hasNewNames, computeOrder, seedFoldAux, sortByHint, hintInsert,
    OrderingHint.lt, HintType.code, isBA, placeOne, leadingBegins, placeBA, placeBAF,
    placePass, tryPlace, unspecifiedHint]

/-- C2 counterexample: registering `X` at path `"Menu/Sub"` under an
empty registry root auto-creates the intermediate groups, but they are
created `Anonymous` (spec §4.2) and anonymous groups are delegated
through rather than visited (Registry.h's delegation comment, spec §3),
so the visit emits only `Visit(X)` — no `BeginGroup("Menu")`,
`BeginGroup("Sub")` or matching `EndGroup`s — refuting the claimed
callback subsequence for the auto-created case. -/
theorem roundTrip_autocreated_cex :
    (Visit 0 emptyStore []
      (RegisterItem [] ⟨"Menu/Sub", unspecifiedHint⟩
        (.single "X" unspecifiedHint)).1).1 = [.visit "X" []] := by
  decide

/-- C2 (amended): when the groups at `"Menu/Sub"` pre-exist as named
(non-anonymous) groups, registering any item `X` there (whatever hint it
carried: the placement hint overwrites it) and visiting yields exactly
`BeginGroup("Menu"), BeginGroup("Sub"), Visit(X), EndGroup("Sub"),
EndGroup("Menu")`; when the groups have to be auto-created they are
`Anonymous` and delegated through, so only `Visit(X)` is emitted. -/
theorem roundTrip_preexisting_groups (x : String) (h0 : OrderingHint) :
    (Visit 0 emptyStore []
      (RegisterItem
        [.group "Menu" unspecifiedHint (some .Weak)
          [.group "Sub" unspecifiedHint (some .Weak) []]]
        ⟨"Menu/Sub", unspecifiedHint⟩ (.single x h0)).1).1 =
      [.beginGroup "Menu" [], .beginGroup "Sub" ["Menu"],
       .visit x ["Menu", "Sub"],
       .endGroup "Sub" ["Menu"], .endGroup "Menu" []] := by
  have hs : splitPath "Menu/Sub" = ["Menu", "Sub"] := by decide
  simp [RegisterItem, hs, registerPath, updateChild, BaseItem.nameOf, BaseItem.setHint,
    Visit, expand, expandList, delegate, CFItem.hintOf, CFItem.setHint, levelFuel, cfDepth,
    cfDepthList, visitLevel, visitEntries, mergedOf, orderedOf, recordStep, levelDiags,
    collectList, collectOne, collectMany,
    getOrdering, effHint, dedupMerge, dedupInto, mergeOne, mergeTwo, Store.get, Store.set,
    emptyStore, hasNewNames, computeOrder, seedFoldAux, sortByHint, hintInsert, OrderingHint.lt,
    HintType.code, isBA, placeOne, leadingBegins, placeBA, placeBAF, placePass, tryPlace,
    unspecifiedHint]

/-- C5 counterexample: a `ComputedItem` whose factory observes the
ambient state (returns `P` on the first call, null on the second — the
spec's own "ComputedItem re-evaluation" scenario) makes two consecutive
`Visit` calls, with no intervening registration, produce different
traversal sequences: `[Visit(P)]` then `[]`. -/
theorem visit_idempotence_cex :
    (Visit 0 emptyStore []
      [.computed unspecifiedHint
        (fun t => if t == 0 then some (.single "P" unspecifiedHint) else none)]).1 =
      [.visit "P" []] ∧
    (Visit 1
      (Visit 0 emptyStore []
        [.computed unspecifiedHint
          (fun t => if t == 0 then some (.single "P" unspecifiedHint) else none)]).2.1
      []
      [.computed unspecifiedHint
        (fun t => if t == 0 then some (.single "P" unspecifiedHint) else none)]).1 =
      [] := by
  exact ⟨by decide, by decide⟩

/-- C1 counterexample: three failures of the unconditional claim.
(i) Mutually cyclic `Before` hints — `i` hinted `Before("X")` and `X`
hinted `Before("i")` — cannot both be honored; the final order is
`[X, i]`, so `i` does not precede its present sibling `X` (the header
itself warns the request "might not be honored ... when more than one
item requests the same ordering").  (ii) With a stored order
`["E", "B"]` the recorded ranking is authoritative (spec section 8,
the persisted-stability property), so the `End`-hinted `E` stays before
the `Begin`-hinted `B`.  (iii) With a stored order `["X", "i"]` ranking
both `i` and its anchor, the seeded `Before("X")` hint of `i` conflicts
with the stored ranking; the stored order wins and the violated hint is
flagged with an `unsatisfiedHint` diagnostic. -/
theorem hint_correctness_cex :
    ((computeOrder []
        [⟨"i", ⟨.Before, "X"⟩, .leaf⟩,
         ⟨"X", ⟨.Before, "i"⟩, .leaf⟩]).1.map (·.name) = ["X", "i"]) ∧
    ((computeOrder ["E", "B"]
        [⟨"E", ⟨.End, ""⟩, .leaf⟩,
         ⟨"B", ⟨.Begin, ""⟩, .leaf⟩]).1.map (·.name) = ["E", "B"]) ∧
    ((computeOrder ["X", "i"]
        [⟨"i", ⟨.Before, "X"⟩, .leaf⟩,
         ⟨"X", unspecifiedHint, .leaf⟩]).1.map (·.name) = ["X", "i"] ∧
      (computeOrder ["X", "i"]
        [⟨"i", ⟨.Before, "X"⟩, .leaf⟩,
         ⟨"X", unspecifiedHint, .leaf⟩]).2 = [.unsatisfiedHint "i"]) := by
  exact ⟨by decide, by decide, by decide, by decide⟩

/-- C3: if the stored order for a path is `[A, B, C]` and the merged
candidates are those three items (whatever their hints) plus a new item
`D` with no explicit hint (`Unspecified`), the computed order is
`[A, B, C, D]`: the stored relative order of `A, B, C` is kept and `D`
is appended. -/
theorem persisted_stability (A B C D : String) (hA hB hC : OrderingHint)
    (pA pB pC pD : Payload)
    (hAB : A ≠ B) (hAC : A ≠ C) (hAD : A ≠ D)
    (hBC : B ≠ C) (hBD : B ≠ D) (hCD : C ≠ D) :
    (computeOrder [A, B, C]
      [⟨A, hA, pA⟩, ⟨B, hB, pB⟩, ⟨C, hC, pC⟩, ⟨D, unspecifiedHint, pD⟩]).1 =
      [⟨A, hA, pA⟩, ⟨B, hB, pB⟩, ⟨C, hC, pC⟩, ⟨D, unspecifiedHint, pD⟩] := by
  simp [computeOrder, seedFoldAux, sortByHint, hintInsert, OrderingHint.lt, HintType.code, isBA,
    placeOne, leadingBegins, placeBA, placeBAF, placePass, tryPlace, unspecifiedHint,
    hAB, hAC, hAD, hBC, hBD, hCD, hAB.symm, hAC.symm, hAD.symm, hBC.symm, hBD.symm,
    hCD.symm]

theorem hintInsert_cons_of_front (e x : Entry) (xs : List Entry)
    (h : OrderingHint.lt x.hint e.hint = false) :
    hintInsert e (x :: xs) = e :: x :: xs := by
  simp [hintInsert, h]

theorem hintInsert_front (e : Entry) (l : List Entry)
    (h : ∀ x ∈ l, OrderingHint.lt x.hint e.hint = false) :
    hintInsert e l = e :: l := by
  cases l with
  | nil => rfl
  | cons x xs => exact hintInsert_cons_of_front e x xs (h x (by simp))

theorem hintInsert_append_of_lt (e : Entry) (pre suf : List Entry)
    (h : ∀ x ∈ pre, OrderingHint.lt x.hint e.hint = true) :
    hintInsert e (pre ++ suf) = pre ++ hintInsert e suf := by
  induction pre with
  | nil => rfl
  | cons x xs ih =>
    have hx := h x (by simp)
    simp only [List.cons_append, hintInsert, hx, if_pos, List.append_eq]
    rw [ih (fun y hy => h y (by simp [hy]))]

theorem sortByHint_end_unspec (l : List Entry)
    (h : ∀ e ∈ l, e.hint = ⟨.End, ""⟩ ∨ e.hint = ⟨.Unspecified, ""⟩) :
    sortByHint l =
      l.filter (fun e => e.hint.type == .End) ++
      l.filter (fun e => e.hint.type == .Unspecified) := by
  induction l with
  | nil => rfl
  | cons e rest ih =>
    have hrest : ∀ x ∈ rest, x.hint = ⟨.End, ""⟩ ∨ x.hint = ⟨.Unspecified, ""⟩ :=
      fun x hx => h x (List.mem_cons_of_mem _ hx)
    rw [sortByHint, ih hrest]
    have hmem : ∀ x ∈ rest.filter (fun e => e.hint.type == .End) ++
        rest.filter (fun e => e.hint.type == .Unspecified),
        x.hint = ⟨.End, ""⟩ ∨ x.hint = ⟨.Unspecified, ""⟩ := by
      intro x hx
      rcases List.mem_append.1 hx with hx | hx
      · exact hrest x (List.mem_of_mem_filter hx)
      · exact hrest x (List.mem_of_mem_filter hx)
    rcases h e (by simp) with he | he
    · rw [hintInsert_front e _ (fun x hx => by
        rcases hmem x hx with h1 | h1 <;>
          simp [OrderingHint.lt, HintType.code, strLt, charsLt, h1, he])]
      simp [List.filter_cons, he]
    · rw [hintInsert_append_of_lt e _ _ (fun x hx => by
        have h1 : x.hint = ⟨.End, ""⟩ := by
          have := List.of_mem_filter hx
          rcases hrest x (List.mem_of_mem_filter hx) with h1 | h1
          · exact h1
          · rw [h1] at this; simp at this
        simp [OrderingHint.lt, HintType.code, strLt, charsLt, h1, he])]
      rw [hintInsert_front e _ (fun x hx => by
        have h1 : x.hint = ⟨.Unspecified, ""⟩ := by
          have := List.of_mem_filter hx
          rcases hrest x (List.mem_of_mem_filter hx) with h1 | h1
          · rw [h1] at this; simp at this
          · exact h1
        simp [OrderingHint.lt, HintType.code, strLt, charsLt, h1, he])]
      simp [List.filter_cons, he]

theorem foldl_placeOne_append (l : List Entry)
    (h : ∀ e ∈ l, ¬ e.hint.type = .Begin) :
    ∀ acc, l.foldl placeOne acc = acc ++ l := by
  induction l with
  | nil => simp
  | cons e rest ih =>
    intro acc
    have he : placeOne acc e = acc ++ [e] := by
      have := h e (by simp)
      simp [placeOne, this]
    rw [List.foldl_cons, he, ih (fun x hx => h x (by simp [hx]))]
    simp

theorem placeBA_nil (placed : List Entry) (diags : List Diag) :
    placeBA placed [] diags = (placed, diags) := rfl

theorem computeOrder_fst_eq (stored : List String) (entries : List Entry) :
    (computeOrder stored entries).1 =
      (placeBA
        (((entries.filter (fun e => !stored.contains e.name)).filter
              (fun e => e.hint.type == .Begin)).foldl placeOne
            (seedFoldAux entries [] stored)
          ++ (entries.filter (fun e => !stored.contains e.name)).filter
              (fun e => e.hint.type == .Unspecified)
          ++ (entries.filter (fun e => !stored.contains e.name)).filter
              (fun e => e.hint.type == .End))
        (sortByHint ((entries.filter
            (fun e => !stored.contains e.name)).filter isBA))
        []).1 := rfl

/-- C6: in the final order of a merged child list, an `End`-hinted item
is placed after an `Unspecified`-hinted item when, and only when, the
two are otherwise tied: (a) with no stored order and no
`Begin`/`Before`/`After` criteria in play — all siblings otherwise
tied — the `Unspecified`-hinted items keep candidate order and the
`End`-hinted ones are pinned after them (spec section 4.3); (b) when a
stored order ranks the two, the tie is broken by it and an `End` item
can stay first; (c) `Unspecified` otherwise acts as the same
back-of-list class as `End` except for delegates: a `ComputedItem`
substitute carrying an `Unspecified` hint adopts the delegating item's
hint. -/
theorem end_after_unspecified_tied :
    (∀ entries : List Entry,
      (∀ e ∈ entries, e.hint = ⟨.End, ""⟩ ∨ e.hint = ⟨.Unspecified, ""⟩) →
      (computeOrder [] entries).1 =
        entries.filter (fun e => e.hint.type == .Unspecified) ++
        entries.filter (fun e => e.hint.type == .End)) ∧
    ((computeOrder ["E", "U"]
        [⟨"U", unspecifiedHint, .leaf⟩,
         ⟨"E", ⟨.End, ""⟩, .leaf⟩]).1.map (·.name) = ["E", "U"]) ∧
    (∀ (t : Nat) (h : OrderingHint) (f : Nat → Option CFItem) (cf : CFItem),
      f t = some cf → cf.hintOf.type = .Unspecified →
      expand t (.computed h f) = some (cf.setHint h)) := by
  refine ⟨?_, by decide, ?_⟩
  · intro entries h
    rw [computeOrder_fst_eq]
    have hnews : entries.filter (fun e => !List.contains [] e.name) =
        entries :=
      List.filter_eq_self.2 (fun a _ => by simp [List.contains])
    rw [hnews]
    have hBF : entries.filter (fun e => e.hint.type == .Begin) = [] := by
      rw [List.filter_eq_nil_iff]
      intro e he hc
      rcases h e he with h1 | h1 <;> rw [h1] at hc <;> simp at hc
    have hBAF : entries.filter isBA = [] := by
      rw [List.filter_eq_nil_iff]
      intro e he hc
      rcases h e he with h1 | h1 <;> rw [isBA, h1] at hc <;> simp at hc
    rw [hBF, hBAF]
    rw [show sortByHint [] = ([] : List Entry) from rfl, placeBA_nil]
    simp [seedFoldAux]
  · intro t h f cf hf hcf
    simp [expand, hf, delegate, hcf]

/-- Witness for `end_after_unspecified_tied`: at the concrete tied pair
`U` (`Unspecified`) before `E` (`End`) the computed order keeps `U`
first and pins `E` after it, and a computed item's `Unspecified`
substitute adopts the delegating hint. -/
theorem end_after_unspecified_tied_witness :
    (∀ e ∈ ([⟨"U", ⟨.Unspecified, ""⟩, .leaf⟩,
             ⟨"E", ⟨.End, ""⟩, .leaf⟩] : List Entry),
      e.hint = ⟨.End, ""⟩ ∨ e.hint = ⟨.Unspecified, ""⟩) ∧
    (computeOrder [] [⟨"U", ⟨.Unspecified, ""⟩, .leaf⟩,
        ⟨"E", ⟨.End, ""⟩, .leaf⟩]).1 =
      [⟨"U", ⟨.Unspecified, ""⟩, .leaf⟩, ⟨"E", ⟨.End, ""⟩, .leaf⟩] ∧
    expand 0 (.computed ⟨.Begin, ""⟩
        (fun _ => some (.single "P" unspecifiedHint))) =
      some (.single "P" ⟨.Begin, ""⟩) := by
  have hall : ∀ e ∈ ([⟨"U", ⟨.Unspecified, ""⟩, .leaf⟩,
      ⟨"E", ⟨.End, ""⟩, .leaf⟩] : List Entry),
      e.hint = ⟨.End, ""⟩ ∨ e.hint = ⟨.Unspecified, ""⟩ := by
    intro e he
    rcases List.mem_cons.1 he with h | h
    · right; rw [h]
    · left
      rcases List.mem_cons.1 h with h | h
      · rw [h]
      · simp at h
  refine ⟨hall, ?_, ?_⟩
  · rw [end_after_unspecified_tied.1 _ hall]
    rfl
  · exact end_after_unspecified_tied.2.2 0 ⟨.Begin, ""⟩
      (fun _ => some (.single "P" unspecifiedHint))
      (.single "P" unspecifiedHint) rfl rfl

/-- C7: `RegisterItem` never fails on a duplicate name: whenever the
placement path resolves to a group (`lookupPath` succeeds) that already
has a child named like the new item, registration still reports no
diagnostic and the resolved group's child list afterwards is the old
list with the item (carrying the placement hint) appended at the end —
last write is appended. -/
theorem register_duplicate_appends (p : List String) (hint : OrderingHint)
    (item : BaseItem) (children cs : List BaseItem)
    (hlook : lookupPath p children = some cs)
    (_hdup : ∃ c ∈ cs, c.nameOf = item.nameOf) :
    (registerPath p hint item children).2 = [] ∧
    lookupPath p (registerPath p hint item children).1 =
      some (cs ++ [item.setHint hint]) := by
  clear _hdup
  induction p generalizing children cs with
  | nil =>
    simp only [lookupPath, Option.some.injEq] at hlook
    subst hlook
    exact ⟨rfl, rfl⟩
  | cons seg rest ih =>
    simp only [lookupPath, registerPath] at hlook ⊢
    induction children with
    | nil => simp [lookupChild] at hlook
    | cons c siblings ihc =>
      by_cases hc : (c.nameOf == seg) = true
      · cases c with
        | group n gh go gch =>
          simp only [BaseItem.nameOf] at hc
          simp only [lookupChild, BaseItem.nameOf, hc, if_pos] at hlook
          obtain ⟨h1, h2⟩ := ih gch cs hlook
          refine ⟨?_, ?_⟩
          · simp only [updateChild, BaseItem.nameOf, hc, if_pos]
            exact h1
          · simp only [updateChild, BaseItem.nameOf, hc, if_pos, lookupChild]
            exact h2
        | single n h0 =>
          simp only [BaseItem.nameOf] at hc
          rw [beq_iff_eq] at hc
          subst hc
          simp [lookupChild, BaseItem.nameOf] at hlook
        | indirect h0 ptr =>
          simp only [BaseItem.nameOf] at hc
          rw [beq_iff_eq] at hc
          subst hc
          simp [lookupChild, BaseItem.nameOf] at hlook
        | computed h0 f =>
          simp only [BaseItem.nameOf] at hc
          rw [beq_iff_eq] at hc
          subst hc
          simp [lookupChild, BaseItem.nameOf] at hlook
      · rw [Bool.not_eq_true] at hc
        simp only [lookupChild, hc, Bool.false_eq_true, if_neg,
          not_false_eq_true] at hlook
        obtain ⟨h1, h2⟩ := ihc hlook
        refine ⟨?_, ?_⟩
        · simp only [updateChild, hc, Bool.false_eq_true, if_neg,
            not_false_eq_true]
          exact h1
        · simp only [updateChild, hc, Bool.false_eq_true, if_neg,
            not_false_eq_true, lookupChild]
          exact h2

/-- Witness for `register_duplicate_appends`: registering a second
`"X"` into group `"G"` that already contains an `"X"` reports nothing
and appends. -/
theorem register_duplicate_appends_witness :
    lookupPath ["G"]
        [.group "G" unspecifiedHint (some .Weak) [.single "X" unspecifiedHint]] =
      some [.single "X" unspecifiedHint] ∧
    (∃ c ∈ [BaseItem.single "X" unspecifiedHint],
      c.nameOf = (BaseItem.single "X" ⟨.End, ""⟩).nameOf) ∧
    (registerPath ["G"] unspecifiedHint (.single "X" ⟨.End, ""⟩)
        [.group "G" unspecifiedHint (some .Weak)
          [.single "X" unspecifiedHint]]).2 = [] ∧
    lookupPath ["G"] (registerPath ["G"] unspecifiedHint (.single "X" ⟨.End, ""⟩)
        [.group "G" unspecifiedHint (some .Weak)
          [.single "X" unspecifiedHint]]).1 =
      some ([.single "X" unspecifiedHint] ++
        [(BaseItem.single "X" ⟨.End, ""⟩).setHint unspecifiedHint]) := by
  have hdup : ∃ c ∈ [BaseItem.single "X" unspecifiedHint],
      c.nameOf = (BaseItem.single "X" ⟨.End, ""⟩).nameOf :=
    ⟨.single "X" unspecifiedHint, by simp, rfl⟩
  exact ⟨rfl, hdup,
    register_duplicate_appends ["G"] unspecifiedHint (.single "X" ⟨.End, ""⟩)
      _ _ rfl hdup⟩

theorem mem_insertIdx_of_mem {x z : Entry} {l : List Entry} (h : x ∈ l) :
    ∀ i, x ∈ List.insertIdx i z l := by
  induction l with
  | nil => simp at h
  | cons a as ih =>
    intro i
    cases i with
    | zero =>
      rw [List.insertIdx_zero]
      exact List.mem_cons_of_mem _ h
    | succ k =>
      rw [List.insertIdx_succ_cons]
      rcases List.mem_cons.1 h with rfl | h2
      · exact List.mem_cons_self _ _
      · exact List.mem_cons_of_mem _ (ih h2 k)

theorem mem_of_mem_insertIdx {x z : Entry} :
    ∀ (l : List Entry) (i : Nat), x ∈ List.insertIdx i z l → x = z ∨ x ∈ l := by
  intro l
  induction l with
  | nil =>
    intro i h
    cases i with
    | zero =>
      rw [List.insertIdx_zero] at h
      simpa using h
    | succ k =>
      rw [List.insertIdx_of_length_lt _ _ _ (by simp)] at h
      simp at h
  | cons a as ih =>
    intro i h
    cases i with
    | zero =>
      rw [List.insertIdx_zero] at h
      rcases List.mem_cons.1 h with rfl | h2
      · exact Or.inl rfl
      · exact Or.inr h2
    | succ k =>
      rw [List.insertIdx_succ_cons] at h
      rcases List.mem_cons.1 h with rfl | h2
      · exact Or.inr (List.mem_cons_self _ _)
      · rcases ih k h2 with h3 | h3
        · exact Or.inl h3
        · exact Or.inr (List.mem_cons_of_mem _ h3)

theorem pairwise_insertIdx {R : Entry → Entry → Prop} (x : Entry) :
    ∀ (l : List Entry) (i : Nat),
    (∀ a ∈ l.take i, R a x) → (∀ b ∈ l.drop i, R x b) → l.Pairwise R →
    (List.insertIdx i x l).Pairwise R := by
  intro l
  induction l with
  | nil =>
    intro i hpre hpost h
    cases i with
    | zero =>
      rw [List.insertIdx_zero]
      simp
    | succ k =>
      rw [List.insertIdx_of_length_lt _ _ _ (by simp)]
      exact h
  | cons a as ih =>
    intro i hpre hpost h
    rw [List.pairwise_cons] at h
    cases i with
    | zero =>
      rw [List.insertIdx_zero, List.pairwise_cons]
      refine ⟨fun b hb => hpost b (by simpa using hb), List.pairwise_cons.2 h⟩
    | succ k =>
      rw [List.insertIdx_succ_cons, List.pairwise_cons]
      constructor
      · intro b hb
        rcases mem_of_mem_insertIdx as k hb with rfl | hbm
        · exact hpre a (by rw [List.take_succ_cons]; exact List.mem_cons_self _ _)
        · exact h.1 b hbm
      · exact ih k
          (fun c hc => hpre c
            (by rw [List.take_succ_cons]; exact List.mem_cons_of_mem _ hc))
          (fun c hc => hpost c (by rwa [List.drop_succ_cons]))
          h.2

theorem leadingBegins_le (l : List Entry) : leadingBegins l ≤ l.length := by
  induction l with
  | nil => simp [leadingBegins]
  | cons e rest ih =>
    rw [leadingBegins]
    split
    · simpa using ih
    · simp

theorem take_leadingBegins_begin (l : List Entry) :
    ∀ a ∈ l.take (leadingBegins l), a.hint.type = .Begin := by
  induction l with
  | nil => simp
  | cons e rest ih =>
    rw [leadingBegins]
    split
    · rename_i hb
      rw [List.take_succ_cons]
      intro a ha
      rcases List.mem_cons.1 ha with rfl | ha2
      · exact beq_iff_eq.1 hb
      · exact ih a ha2
    · simp

theorem isBA_types {e : Entry} (h : isBA e = true) :
    e.hint.type = .Before ∨ e.hint.type = .After := by
  rcases Bool.or_eq_true_iff.1 h with h1 | h1
  · exact Or.inl (beq_iff_eq.1 h1)
  · exact Or.inr (beq_iff_eq.1 h1)

theorem isBA_not_begin {e : Entry} (h : isBA e = true) :
    ¬ e.hint.type = .Begin := by
  rcases isBA_types h with h1 | h1 <;> simp [h1]

theorem isBA_not_normal {e : Entry} (h : isBA e = true) :
    ¬ (e.hint.type = .End ∨ e.hint.type = .Unspecified) := by
  rcases isBA_types h with h1 | h1 <;> simp [h1]

theorem pairwise_of_mem_rel {R : Entry → Entry → Prop} :
    ∀ l : List Entry, (∀ a ∈ l, ∀ b ∈ l, R a b) → l.Pairwise R := by
  intro l
  induction l with
  | nil => exact fun _ => List.Pairwise.nil
  | cons e rest ih =>
    intro h
    rw [List.pairwise_cons]
    exact ⟨fun b hb => h e (by simp) b (List.mem_cons_of_mem _ hb),
      ih fun a ha b hb =>
        h a (List.mem_cons_of_mem _ ha) b (List.mem_cons_of_mem _ hb)⟩

theorem placeOne_pairwise {R : Entry → Entry → Prop}
    (hR1 : ∀ a b : Entry, ¬ b.hint.type = .Begin → R a b)
    (hR2 : ∀ a b : Entry,
      ¬ (a.hint.type = .End ∨ a.hint.type = .Unspecified) → R a b)
    {l : List Entry} (e : Entry) (h : l.Pairwise R) :
    (placeOne l e).Pairwise R := by
  rw [placeOne]
  split
  · rename_i hb
    apply pairwise_insertIdx
    · intro a ha
      have hB := take_leadingBegins_begin l a ha
      exact hR2 a e (by simp [hB])
    · intro b _
      have he : e.hint.type = .Begin := beq_iff_eq.1 hb
      exact hR2 e b (by simp [he])
    · exact h
  · rename_i hb
    rw [List.pairwise_append]
    refine ⟨h, by simp, ?_⟩
    intro a _ b hbm
    rw [List.mem_singleton] at hbm
    subst hbm
    exact hR1 a b fun hc => hb (by rw [hc]; rfl)

theorem foldl_placeOne_pairwise {R : Entry → Entry → Prop}
    (hR1 : ∀ a b : Entry, ¬ b.hint.type = .Begin → R a b)
    (hR2 : ∀ a b : Entry,
      ¬ (a.hint.type = .End ∨ a.hint.type = .Unspecified) → R a b)
    (l : List Entry) :
    ∀ acc, acc.Pairwise R → (l.foldl placeOne acc).Pairwise R := by
  induction l with
  | nil => intro acc h; simpa using h
  | cons e rest ih =>
    intro acc h
    rw [List.foldl_cons]
    exact ih _ (placeOne_pairwise hR1 hR2 e h)

theorem tryPlace_eq_insertIdx {placed : List Entry} {e : Entry}
    {out : List Entry} (h : tryPlace placed e = some out) :
    ∃ i, out = placed.insertIdx i e := by
  rw [tryPlace] at h
  split at h
  · exact absurd h (by simp)
  · split at h
    · exact absurd h (by simp)
    · split at h
      · exact ⟨_, (Option.some.injEq _ _ ▸ h).symm⟩
      · exact ⟨_, (Option.some.injEq _ _ ▸ h).symm⟩
      · exact absurd h (by simp)

theorem placePass_pairwise {R : Entry → Entry → Prop}
    (hR1 : ∀ a b : Entry, ¬ b.hint.type = .Begin → R a b)
    (hR2 : ∀ a b : Entry,
      ¬ (a.hint.type = .End ∨ a.hint.type = .Unspecified) → R a b)
    (l : List Entry) (hBA : ∀ e ∈ l, isBA e = true) :
    ∀ placed, placed.Pairwise R → ((placePass placed l).1).Pairwise R := by
  induction l with
  | nil => intro placed h; simpa [placePass] using h
  | cons e rest ih =>
    intro placed h
    have he := hBA e (by simp)
    rw [placePass]
    cases htry : tryPlace placed e with
    | some p1 =>
      obtain ⟨i, rfl⟩ := tryPlace_eq_insertIdx htry
      exact ih (fun x hx => hBA x (by simp [hx])) _
        (pairwise_insertIdx e placed i
          (fun a _ => hR1 a e (isBA_not_begin he))
          (fun b _ => hR2 e b (isBA_not_normal he))
          h)
    | none =>
      exact ih (fun x hx => hBA x (by simp [hx])) placed h

theorem placePass_unplaced_mem {l placed : List Entry} :
    ∀ x ∈ (placePass placed l).2, x ∈ l := by
  induction l generalizing placed with
  | nil => simp [placePass]
  | cons e rest ih =>
    intro x hx
    rw [placePass] at hx
    cases htry : tryPlace placed e with
    | some p1 =>
      rw [htry] at hx
      exact List.mem_cons_of_mem _ (ih x hx)
    | none =>
      rw [htry] at hx
      rcases List.mem_cons.1 hx with rfl | h2
      · exact List.mem_cons_self _ _
      · exact List.mem_cons_of_mem _ (ih x h2)

theorem pairwise_of_all_BA {R : Entry → Entry → Prop}
    (hR2 : ∀ a b : Entry,
      ¬ (a.hint.type = .End ∨ a.hint.type = .Unspecified) → R a b)
    (l : List Entry) (hBA : ∀ e ∈ l, isBA e = true) : l.Pairwise R :=
  pairwise_of_mem_rel l
    (fun a ha b _ => hR2 a b (isBA_not_normal (hBA a ha)))

theorem placeBAF_pairwise {R : Entry → Entry → Prop}
    (hR1 : ∀ a b : Entry, ¬ b.hint.type = .Begin → R a b)
    (hR2 : ∀ a b : Entry,
      ¬ (a.hint.type = .End ∨ a.hint.type = .Unspecified) → R a b) :
    ∀ (fuel : Nat) (placed news : List Entry) (diags : List Diag),
    (∀ e ∈ news, isBA e = true) → placed.Pairwise R →
    ((placeBAF fuel placed news diags).1).Pairwise R := by
  intro fuel
  induction fuel with
  | zero =>
    intro placed news diags hBA h
    cases news with
    | nil => exact h
    | cons e rest =>
      rw [show placeBAF 0 placed (e :: rest) diags =
          (placed ++ e :: rest,
            diags ++ (e :: rest).map (fun x => .unsatisfiedHint x.name)) from rfl]
      rw [List.pairwise_append]
      refine ⟨h, pairwise_of_all_BA hR2 _ hBA, ?_⟩
      intro a _ b hb
      exact hR1 a b (isBA_not_begin (hBA b hb))
  | succ fuel ih =>
    intro placed news diags hBA h
    cases news with
    | nil => exact h
    | cons e rest =>
      rw [placeBAF]
      have hp1 := placePass_pairwise hR1 hR2 (e :: rest) hBA placed h
      have hBA2 : ∀ x ∈ (placePass placed (e :: rest)).2, isBA x = true :=
        fun x hx => hBA x (placePass_unplaced_mem x hx)
      split
      · exact ih _ _ _ hBA2 hp1
      · split
        · exact hp1
        · rename_i f frest heq
          apply ih
          · intro x hx
            exact hBA2 x (by rw [heq]; exact List.mem_cons_of_mem _ hx)
          · rw [List.pairwise_append]
            refine ⟨hp1, by simp, ?_⟩
            intro a _ b hb
            rw [List.mem_singleton] at hb
            subst hb
            have hbb : isBA b = true :=
              hBA2 b (by rw [heq]; exact List.mem_cons_self _ _)
            exact hR1 a b (isBA_not_begin hbb)

theorem Precedes_insertIdx {x y : Entry} (z : Entry) (l : List Entry)
    (i : Nat) (h : Precedes x y l) : Precedes x y (List.insertIdx i z l) := by
  obtain ⟨l1, l2, rfl, hy⟩ := h
  induction l1 generalizing i with
  | nil =>
    cases i with
    | zero =>
      rw [List.nil_append, List.insertIdx_zero]
      exact ⟨[z], l2, rfl, hy⟩
    | succ k =>
      rw [List.nil_append, List.insertIdx_succ_cons]
      exact ⟨[], List.insertIdx k z l2, rfl, mem_insertIdx_of_mem hy k⟩
  | cons a l1' ih =>
    cases i with
    | zero =>
      rw [List.insertIdx_zero]
      exact ⟨z :: a :: l1', l2, rfl, hy⟩
    | succ k =>
      rw [List.cons_append, List.insertIdx_succ_cons]
      obtain ⟨m1, m2, heq, hym⟩ := ih k
      exact ⟨a :: m1, m2, by rw [heq, List.cons_append], hym⟩

theorem Precedes_append {x y : Entry} {l : List Entry} (l' : List Entry)
    (h : Precedes x y l) : Precedes x y (l ++ l') := by
  obtain ⟨l1, l2, rfl, hy⟩ := h
  exact ⟨l1, l2 ++ l', by simp, List.mem_append_left _ hy⟩

theorem placePass_precedes {x y : Entry} :
    ∀ (l placed : List Entry), Precedes x y placed →
    Precedes x y (placePass placed l).1 := by
  intro l
  induction l with
  | nil => intro placed h; simpa [placePass] using h
  | cons e rest ih =>
    intro placed h
    rw [placePass]
    cases htry : tryPlace placed e with
    | some p1 =>
      obtain ⟨i, rfl⟩ := tryPlace_eq_insertIdx htry
      exact ih _ (Precedes_insertIdx e placed i h)
    | none => exact ih placed h

theorem placePass_mem_placed {x : Entry} :
    ∀ (l placed : List Entry), x ∈ placed → x ∈ (placePass placed l).1 := by
  intro l
  induction l with
  | nil => intro placed h; simpa [placePass] using h
  | cons e rest ih =>
    intro placed h
    rw [placePass]
    cases htry : tryPlace placed e with
    | some p1 =>
      obtain ⟨i, rfl⟩ := tryPlace_eq_insertIdx htry
      exact ih _ (mem_insertIdx_of_mem h i)
    | none => exact ih placed h

theorem findIdx?_some_split {p : Entry → Bool} :
    ∀ (l : List Entry) (i s : Nat), List.findIdx? p l s = some i →
    ∃ l1 q l2, l = l1 ++ q :: l2 ∧ s + l1.length = i ∧ p q = true := by
  intro l
  induction l with
  | nil => intro i s h; simp [List.findIdx?] at h
  | cons x xs ih =>
    intro i s h
    rw [List.findIdx?_cons] at h
    by_cases hx : p x = true
    · rw [if_pos hx] at h
      refine ⟨[], x, xs, rfl, ?_, hx⟩
      simpa using Option.some.inj h
    · rw [if_neg hx] at h
      obtain ⟨l1, q, l2, rfl, hlen, hq⟩ := ih i (s + 1) h
      refine ⟨x :: l1, q, l2, rfl, ?_, hq⟩
      simp only [List.length_cons]
      omega

theorem findIdx?_some_of_exists {p : Entry → Bool} :
    ∀ (l : List Entry) (s : Nat), (∃ x ∈ l, p x = true) →
    ∃ i, List.findIdx? p l s = some i := by
  intro l
  induction l with
  | nil => intro s h; simp at h
  | cons x xs ih =>
    intro s h
    rw [List.findIdx?_cons]
    by_cases hx : p x = true
    · exact ⟨s, by rw [if_pos hx]⟩
    · rw [if_neg hx]
      obtain ⟨q, hq, hpq⟩ := h
      rcases List.mem_cons.1 hq with rfl | h2
      · exact absurd hpq hx
      · exact ih (s + 1) ⟨q, h2, hpq⟩

theorem insertIdx_split (z q : Entry) :
    ∀ (l1 l2 : List Entry),
    List.insertIdx l1.length z (l1 ++ q :: l2) = l1 ++ z :: q :: l2 := by
  intro l1
  induction l1 with
  | nil => intro l2; simp [List.insertIdx_zero]
  | cons a l1' ih =>
    intro l2
    rw [List.cons_append, List.length_cons, List.insertIdx_succ_cons, ih,
      List.cons_append]

theorem names_inj {entries : List Entry}
    (hnds : (entries.map Entry.name).Nodup) {a b : Entry}
    (ha : a ∈ entries) (hb : b ∈ entries) (hn : a.name = b.name) : a = b :=
  List.inj_on_of_nodup_map hnds ha hb hn

theorem placePass_establish (entries : List Entry)
    (hnds : (entries.map Entry.name).Nodup) (eI eX : Entry)
    (hIe : eI ∈ entries) (hXe : eX ∈ entries)
    (hIhint : eI.hint.type = .Before)
    (hIname : eI.hint.name = eX.name) (hne : eI.name ≠ eX.name) :
    ∀ (l placed : List Entry),
      (∀ q ∈ placed, q ∈ entries) → (∀ q ∈ l, q ∈ entries) →
      eX ∈ placed → eI ∈ l →
      Precedes eI eX (placePass placed l).1 := by
  intro l
  induction l with
  | nil =>
    intro placed _ _ _ hIl
    simp at hIl
  | cons e rest ih =>
    intro placed hpl hll hXp hIl
    by_cases heI : e.name = eI.name
    · have heq : e = eI := names_inj hnds (hll e (by simp)) hIe heI
      rw [heq]
      have hself : (eI.hint.name == eI.name) = false := by
        rw [hIname]
        exact beq_eq_false_iff_ne.2 fun hcon => hne hcon.symm
      have hex : ∃ x ∈ placed, (fun q => q.name == eI.hint.name) x = true :=
        ⟨eX, hXp, by rw [hIname]; simp⟩
      obtain ⟨i, hfind⟩ := findIdx?_some_of_exists placed 0 hex
      obtain ⟨l1, q, l2, hsplit, hlen, hq⟩ := findIdx?_some_split placed i 0 hfind
      have hqX : q = eX := by
        apply names_inj hnds (hpl q (by rw [hsplit]; simp)) hXe
        rw [← hIname]
        exact beq_iff_eq.1 hq
      have htry : tryPlace placed eI = some (placed.insertIdx i eI) := by
        rw [tryPlace, hself]
        simp only [Bool.false_eq_true, if_false, hfind, hIhint]
      rw [placePass, htry]
      apply placePass_precedes
      have hsplit2 : placed = l1 ++ eX :: l2 := by rw [hsplit, hqX]
      rw [hsplit2]
      have hi : i = l1.length := by omega
      rw [hi, insertIdx_split]
      exact ⟨l1, eX :: l2, rfl, List.mem_cons_self _ _⟩
    · have hIrest : eI ∈ rest := by
        rcases List.mem_cons.1 hIl with rfl | h2
        · exact absurd rfl heI
        · exact h2
      rw [placePass]
      cases htry : tryPlace placed e with
      | some p1 =>
        obtain ⟨i, rfl⟩ := tryPlace_eq_insertIdx htry
        apply ih _
          (fun q hq => ?_)
          (fun q hq => hll q (by simp [hq]))
          (mem_insertIdx_of_mem hXp i) hIrest
        rcases mem_of_mem_insertIdx placed i hq with rfl | h2
        · exact hll q (by simp)
        · exact hpl q h2
      | none =>
        exact ih placed hpl (fun q hq => hll q (by simp [hq])) hXp hIrest

theorem placeBAF_precedes {x y : Entry} :
    ∀ (fuel : Nat) (placed news : List Entry) (diags : List Diag),
      Precedes x y placed → Precedes x y (placeBAF fuel placed news diags).1 := by
  intro fuel
  induction fuel with
  | zero =>
    intro placed news diags h
    cases news with
    | nil => exact h
    | cons e rest =>
      rw [show placeBAF 0 placed (e :: rest) diags =
          (placed ++ e :: rest,
            diags ++ (e :: rest).map (fun q => .unsatisfiedHint q.name)) from rfl]
      exact Precedes_append _ h
  | succ fuel ih =>
    intro placed news diags h
    cases news with
    | nil => exact h
    | cons e rest =>
      rw [placeBAF]
      have hp1 := placePass_precedes (e :: rest) placed h
      split
      · exact ih _ _ _ hp1
      · split
        · exact hp1
        · exact ih _ _ _ (Precedes_append _ hp1)

theorem placeBA_establish (entries : List Entry)
    (hnds : (entries.map Entry.name).Nodup) (eI eX : Entry)
    (hIe : eI ∈ entries) (hXe : eX ∈ entries)
    (hIhint : eI.hint.type = .Before)
    (hIname : eI.hint.name = eX.name) (hne : eI.name ≠ eX.name)
    (placed news : List Entry) (diags : List Diag)
    (hpl : ∀ q ∈ placed, q ∈ entries) (hll : ∀ q ∈ news, q ∈ entries)
    (hXp : eX ∈ placed) (hIl : eI ∈ news) :
    Precedes eI eX (placeBA placed news diags).1 := by
  rw [placeBA]
  cases news with
  | nil => simp at hIl
  | cons e rest =>
    rw [List.length_cons, placeBAF]
    have hest := placePass_establish entries hnds eI eX hIe hXe hIhint hIname
      hne (e :: rest) placed hpl hll hXp hIl
    split
    · exact placeBAF_precedes _ _ _ _ hest
    · split
      · exact hest
      · exact placeBAF_precedes _ _ _ _ (Precedes_append _ hest)

theorem mem_hintInsert {x e : Entry} :
    ∀ l : List Entry, x ∈ hintInsert e l ↔ x = e ∨ x ∈ l := by
  intro l
  induction l with
  | nil => simp [hintInsert]
  | cons a as ih =>
    rw [hintInsert]
    split
    · rw [List.mem_cons, ih, List.mem_cons]
      tauto
    · rw [List.mem_cons, List.mem_cons]

theorem mem_sortByHint {x : Entry} :
    ∀ l : List Entry, x ∈ sortByHint l ↔ x ∈ l := by
  intro l
  induction l with
  | nil => simp [sortByHint]
  | cons e rest ih =>
    rw [sortByHint, mem_hintInsert, ih, List.mem_cons]

theorem placeOne_subset {acc : List Entry} {e x : Entry} (h : x ∈ acc) :
    x ∈ placeOne acc e := by
  rw [placeOne]
  split
  · exact mem_insertIdx_of_mem h _
  · exact List.mem_append_left _ h

theorem mem_placeOne_self (acc : List Entry) (e : Entry) :
    e ∈ placeOne acc e := by
  rw [placeOne]
  split
  · exact (List.mem_insertIdx (leadingBegins_le acc)).2 (Or.inl rfl)
  · simp

theorem mem_of_mem_placeOne {acc : List Entry} {e q : Entry}
    (h : q ∈ placeOne acc e) : q = e ∨ q ∈ acc := by
  rw [placeOne] at h
  split at h
  · exact mem_of_mem_insertIdx acc _ h
  · rcases List.mem_append.1 h with h2 | h2
    · exact Or.inr h2
    · exact Or.inl (List.mem_singleton.1 h2)

theorem foldl_placeOne_mem_acc {x : Entry} :
    ∀ (l acc : List Entry), x ∈ acc → x ∈ l.foldl placeOne acc := by
  intro l
  induction l with
  | nil => intro acc h; simpa using h
  | cons e rest ih =>
    intro acc h
    rw [List.foldl_cons]
    exact ih _ (placeOne_subset h)

theorem foldl_placeOne_mem_of_mem {x : Entry} :
    ∀ (l : List Entry), x ∈ l → ∀ acc, x ∈ l.foldl placeOne acc := by
  intro l
  induction l with
  | nil => intro h; simp at h
  | cons e rest ih =>
    intro h acc
    rw [List.foldl_cons]
    rcases List.mem_cons.1 h with rfl | h2
    · exact foldl_placeOne_mem_acc rest _ (mem_placeOne_self acc x)
    · exact ih h2 _

theorem foldl_placeOne_members {q : Entry} :
    ∀ (l acc : List Entry), q ∈ l.foldl placeOne acc → q ∈ acc ∨ q ∈ l := by
  intro l
  induction l with
  | nil => intro acc h; exact Or.inl (by simpa using h)
  | cons e rest ih =>
    intro acc h
    rw [List.foldl_cons] at h
    rcases ih _ h with h2 | h2
    · rcases mem_of_mem_placeOne h2 with rfl | h3
      · exact Or.inr (List.mem_cons_self _ _)
      · exact Or.inl h3
    · exact Or.inr (List.mem_cons_of_mem _ h2)

theorem find?_filter_of_imp {α : Type} (pred q : α → Bool) :
    ∀ l : List α, (∀ x, q x = false → pred x = false) →
    (l.filter q).find? pred = l.find? pred := by
  intro l
  induction l with
  | nil => intro _; rfl
  | cons x xs ih =>
    intro himp
    rw [List.filter_cons]
    by_cases hq : q x = true
    · rw [if_pos hq, List.find?_cons, List.find?_cons]
      cases pred x <;> simp [ih himp]
    · rw [if_neg hq]
      have hpx : pred x = false := himp x (by simpa using hq)
      rw [List.find?_cons, hpx]
      simp [ih himp]

theorem Store.get_set_self (s : Store) (k : List String) (v : List String) :
    (s.set k v).get k = some v := by
  rw [Store.set, Store.get]
  simp [List.find?_cons]

theorem Store.get_set_ne (s : Store) (k k' : List String) (v : List String)
    (h : k' ≠ k) : (s.set k v).get k' = s.get k' := by
  rw [Store.set, Store.get, Store.get]
  rw [List.find?_cons]
  have hkk : (k == k') = false := beq_eq_false_iff_ne.2 fun hc => h hc.symm
  rw [hkk]
  congr 1
  apply find?_filter_of_imp
  intro x hx
  have hx2 : x.1 = k := by simpa using hx
  rw [hx2]
  exact beq_eq_false_iff_ne.2 fun hc => h hc.symm

theorem not_child_prefix_self (p : List String) (x : String) :
    ¬ (p ++ [x]) <+: p := by
  intro h
  have := h.length_le
  simp at this

theorem child_prefix_inj {p k : List String} {a b : String}
    (ha : (p ++ [a]) <+: k) (hb : (p ++ [b]) <+: k) : a = b := by
  obtain ⟨u, hu⟩ := ha
  obtain ⟨v, hv⟩ := hb
  rw [← hv] at hu
  rw [List.append_assoc, List.append_assoc] at hu
  have h2 := List.append_cancel_left hu
  simp only [List.cons_append, List.nil_append, List.cons.injEq] at h2
  exact h2.1

theorem prefix_of_child_prefix {p k : List String} {x : String}
    (h : (p ++ [x]) <+: k) : p <+: k :=
  (List.prefix_append p [x]).trans h

theorem contains_of_mem {a : String} {l : List String} (h : a ∈ l) :
    l.contains a = true :=
  List.elem_iff.2 h

theorem mergeTwo_name (a b : Entry) : (mergeTwo a b).1.name = a.name := by
  rw [mergeTwo]
  rcases a with ⟨an, ah, ap⟩
  rcases b with ⟨bn, bh, bp⟩
  cases ap <;> cases bp <;> simp <;> split <;> simp

theorem mergeOne_name_iff (e : Entry) :
    ∀ (acc : List Entry) (n : String),
    (n ∈ ((mergeOne acc e).1.map Entry.name) ↔
      n ∈ acc.map Entry.name ∨ n = e.name) := by
  intro acc
  induction acc with
  | nil => intro n; simp [mergeOne]
  | cons x xs ih =>
    intro n
    rw [mergeOne]
    by_cases hx : (x.name == e.name) = true
    · rw [if_pos hx]
      have hxe : x.name = e.name := beq_iff_eq.1 hx
      simp only [List.map_cons, List.mem_cons, mergeTwo_name, hxe]
      tauto
    · rw [if_neg hx]
      simp only [List.map_cons, List.mem_cons]
      rw [ih n]
      tauto

theorem mergeOne_nodup (e : Entry) :
    ∀ acc : List Entry, (acc.map Entry.name).Nodup →
    ((mergeOne acc e).1.map Entry.name).Nodup := by
  intro acc
  induction acc with
  | nil => intro _; simp [mergeOne]
  | cons x xs ih =>
    intro h
    rw [List.map_cons, List.nodup_cons] at h
    rw [mergeOne]
    by_cases hx : (x.name == e.name) = true
    · rw [if_pos hx]
      simp only [List.map_cons, List.nodup_cons, mergeTwo_name]
      exact h
    · rw [if_neg hx]
      simp only [List.map_cons, List.nodup_cons]
      constructor
      · intro hc
        rcases (mergeOne_name_iff e xs x.name).1 hc with h2 | h2
        · exact h.1 h2
        · exact absurd (beq_iff_eq.2 h2) (by simpa using hx)
      · exact ih h.2

theorem dedupInto_nodup :
    ∀ (l acc : List Entry), (acc.map Entry.name).Nodup →
    (((dedupInto acc l).1).map Entry.name).Nodup := by
  intro l
  induction l with
  | nil => intro acc h; exact h
  | cons e rest ih =>
    intro acc h
    rw [dedupInto]
    exact ih _ (mergeOne_nodup e acc h)

theorem dedupMerge_nodup (l : List Entry) :
    (((dedupMerge l).1).map Entry.name).Nodup :=
  dedupInto_nodup l [] (by simp)

theorem hintInsert_perm (e : Entry) :
    ∀ l : List Entry, (hintInsert e l).Perm (e :: l) := by
  intro l
  induction l with
  | nil => exact List.Perm.refl _
  | cons x xs ih =>
    rw [hintInsert]
    split
    · exact (ih.cons x).trans (List.Perm.swap e x xs)
    · exact List.Perm.refl _

theorem sortByHint_perm : ∀ l : List Entry, (sortByHint l).Perm l := by
  intro l
  induction l with
  | nil => exact List.Perm.refl _
  | cons e rest ih =>
    rw [sortByHint]
    exact (hintInsert_perm e _).trans (ih.cons e)

theorem placeOne_perm (acc : List Entry) (e : Entry) :
    (placeOne acc e).Perm (e :: acc) := by
  rw [placeOne]
  split
  · exact List.perm_insertIdx e acc (leadingBegins_le acc)
  · simpa using List.perm_middle

theorem foldl_placeOne_perm :
    ∀ (l acc : List Entry), (l.foldl placeOne acc).Perm (acc ++ l) := by
  intro l
  induction l with
  | nil => intro acc; simp
  | cons e rest ih =>
    intro acc
    rw [List.foldl_cons]
    refine (ih (placeOne acc e)).trans ?_
    have h1 : (placeOne acc e ++ rest).Perm ((e :: acc) ++ rest) :=
      (placeOne_perm acc e).append_right rest
    refine h1.trans ?_
    exact List.perm_middle.symm

theorem tryPlace_insertIdx_le {placed : List Entry} {e : Entry}
    {out : List Entry} (h : tryPlace placed e = some out) :
    ∃ i, i ≤ placed.length ∧ out = placed.insertIdx i e := by
  rw [tryPlace] at h
  split at h
  · exact absurd h (by simp)
  · cases hfind : placed.findIdx? (fun p => p.name == e.hint.name) with
    | none => rw [hfind] at h; exact absurd h (by simp)
    | some i =>
      rw [hfind] at h
      obtain ⟨l1, q, l2, hsplit, hlen, _⟩ := findIdx?_some_split placed i 0 hfind
      have hilen : i < placed.length := by
        rw [hsplit]
        simp only [List.length_append, List.length_cons]
        omega
      cases hht : e.hint.type <;> simp only [hht] at h <;> simp at h
      · exact ⟨i, by omega, h.symm⟩
      · exact ⟨i + 1, by omega, h.symm⟩

theorem placePass_perm :
    ∀ (l placed : List Entry),
    ((placePass placed l).1 ++ (placePass placed l).2).Perm (placed ++ l) := by
  intro l
  induction l with
  | nil => intro placed; simp [placePass]
  | cons e rest ih =>
    intro placed
    cases htry : tryPlace placed e with
    | some p1 =>
      obtain ⟨i, hile, rfl⟩ := tryPlace_insertIdx_le htry
      simp only [placePass, htry]
      refine (ih _).trans ?_
      have h1 : (placed.insertIdx i e).Perm (e :: placed) :=
        List.perm_insertIdx e placed hile
      refine (h1.append_right rest).trans ?_
      exact List.perm_middle.symm
    | none =>
      simp only [placePass, htry]
      have h2 := ih placed
      have h3 : ((placePass placed rest).1 ++
          e :: (placePass placed rest).2).Perm
          (e :: ((placePass placed rest).1 ++ (placePass placed rest).2)) :=
        List.perm_middle
      exact h3.trans ((h2.cons e).trans List.perm_middle.symm)

theorem placeBAF_perm :
    ∀ (fuel : Nat) (placed news : List Entry) (diags : List Diag),
    ((placeBAF fuel placed news diags).1).Perm (placed ++ news) := by
  intro fuel
  induction fuel with
  | zero =>
    intro placed news diags
    cases news with
    | nil =>
      show placed.Perm (placed ++ [])
      simp
    | cons e rest => exact List.Perm.refl _
  | succ fuel ih =>
    intro placed news diags
    cases news with
    | nil =>
      show placed.Perm (placed ++ [])
      simp
    | cons e rest =>
      rw [placeBAF]
      split
      · exact (ih _ _ _).trans (placePass_perm (e :: rest) placed)
      · split
        · rename_i heq
          have h2 := placePass_perm (e :: rest) placed
          rw [heq, List.append_nil] at h2
          exact h2
        · rename_i f frest heq
          refine (ih _ _ _).trans ?_
          have h2 := placePass_perm (e :: rest) placed
          rw [heq] at h2
          refine List.Perm.trans ?_ h2
          simp only [List.append_assoc, List.singleton_append]
          exact List.Perm.refl _

theorem seedFoldAux_mem {E : List Entry} {q : Entry} :
    ∀ (st : List String) (acc : List Entry),
    q ∈ seedFoldAux E acc st → q ∈ acc ∨ q ∈ E := by
  intro st
  induction st with
  | nil => intro acc h; exact Or.inl h
  | cons n rest ih =>
    intro acc h
    cases hfind : E.find? (fun e => e.name == n) with
    | none =>
      simp only [seedFoldAux, hfind] at h
      exact ih acc h
    | some e =>
      simp only [seedFoldAux, hfind] at h
      split at h
      · exact ih acc h
      · rcases ih _ h with h2 | h2
        · rcases List.mem_append.1 h2 with h3 | h3
          · exact Or.inl h3
          · exact Or.inr (List.mem_singleton.1 h3 ▸
              List.mem_of_find?_eq_some hfind)
        · exact Or.inr h2

theorem seedFoldAux_name_mem {E : List Entry} {q : Entry} :
    ∀ (st : List String) (acc : List Entry),
    q ∈ seedFoldAux E acc st → q ∈ acc ∨ q.name ∈ st := by
  intro st
  induction st with
  | nil => intro acc h; exact Or.inl h
  | cons n rest ih =>
    intro acc h
    cases hfind : E.find? (fun e => e.name == n) with
    | none =>
      simp only [seedFoldAux, hfind] at h
      rcases ih acc h with h2 | h2
      · exact Or.inl h2
      · exact Or.inr (List.mem_cons_of_mem _ h2)
    | some e =>
      simp only [seedFoldAux, hfind] at h
      have hen : e.name = n := by
        have h5 := List.find?_some hfind
        simpa using h5
      split at h
      · rcases ih acc h with h2 | h2
        · exact Or.inl h2
        · exact Or.inr (List.mem_cons_of_mem _ h2)
      · rcases ih _ h with h2 | h2
        · rcases List.mem_append.1 h2 with h3 | h3
          · exact Or.inl h3
          · have : q = e := List.mem_singleton.1 h3
            exact Or.inr (by rw [this, hen]; exact List.mem_cons_self _ _)
        · exact Or.inr (List.mem_cons_of_mem _ h2)

theorem seedFoldAux_nodup {E : List Entry} :
    ∀ (st : List String) (acc : List Entry), ((acc.map Entry.name)).Nodup →
    ((seedFoldAux E acc st).map Entry.name).Nodup := by
  intro st
  induction st with
  | nil => intro acc h; exact h
  | cons n rest ih =>
    intro acc h
    cases hfind : E.find? (fun e => e.name == n) with
    | none =>
      simp only [seedFoldAux, hfind]
      exact ih acc h
    | some e =>
      simp only [seedFoldAux, hfind]
      split
      · exact ih acc h
      · rename_i hguard
        apply ih
        rw [List.map_append, List.nodup_append]
        refine ⟨h, by simp, ?_⟩
        intro x hx hy
        rw [List.mem_map] at hx
        obtain ⟨p, hp, rfl⟩ := hx
        simp only [List.map_cons, List.map_nil, List.mem_singleton] at hy
        have hany : acc.any (fun r => r.name == e.name) = true :=
          List.any_eq_true.2 ⟨p, hp, beq_iff_eq.2 hy⟩
        exact hguard hany

theorem seedFoldAux_mono {E : List Entry} {q : Entry} :
    ∀ (st : List String) (acc : List Entry),
    q ∈ acc → q ∈ seedFoldAux E acc st := by
  intro st
  induction st with
  | nil => intro acc h; exact h
  | cons n rest ih =>
    intro acc h
    cases hfind : E.find? (fun e => e.name == n) with
    | none =>
      simp only [seedFoldAux, hfind]
      exact ih acc h
    | some e =>
      simp only [seedFoldAux, hfind]
      split
      · exact ih acc h
      · exact ih _ (List.mem_append_left _ h)

theorem find?_name_unique :
    ∀ {E : List Entry}, (E.map Entry.name).Nodup →
    ∀ {q : Entry}, q ∈ E →
    E.find? (fun e => e.name == q.name) = some q := by
  intro E
  induction E with
  | nil => intro _ q hq; simp at hq
  | cons x xs ih =>
    intro hnd q hq
    by_cases hx : (x.name == q.name) = true
    · have hxq : x = q := names_inj hnd (by simp) hq (beq_iff_eq.1 hx)
      rw [@List.find?_cons_of_pos Entry (fun e => e.name == q.name) x xs hx,
        hxq]
    · rw [@List.find?_cons_of_neg Entry (fun e => e.name == q.name) x xs hx]
      have hq2 : q ∈ xs := by
        rcases List.mem_cons.1 hq with rfl | h2
        · exact absurd (beq_iff_eq.2 rfl) hx
        · exact h2
      rw [List.map_cons, List.nodup_cons] at hnd
      exact ih hnd.2 hq2

theorem seedFoldAux_covers {E : List Entry}
    (hnd : (E.map Entry.name).Nodup) {q : Entry} (hq : q ∈ E) :
    ∀ (st : List String) (acc : List Entry), (∀ p ∈ acc, p ∈ E) →
    q.name ∈ st → q ∈ seedFoldAux E acc st := by
  intro st
  induction st with
  | nil => intro acc _ h; simp at h
  | cons n rest ih =>
    intro acc hacc hst
    by_cases hqn : q.name = n
    · subst hqn
      simp only [seedFoldAux, find?_name_unique hnd hq]
      split
      · rename_i hguard
        obtain ⟨p, hp, hpq⟩ := List.any_eq_true.1 hguard
        have hpqe : p = q := names_inj hnd (hacc p hp) hq (beq_iff_eq.1 hpq)
        exact seedFoldAux_mono rest acc (hpqe ▸ hp)
      · exact seedFoldAux_mono rest _ (List.mem_append_right _ (by simp))
    · have hst2 : q.name ∈ rest := by
        rcases List.mem_cons.1 hst with h2 | h2
        · exact absurd h2 hqn
        · exact h2
      cases hfind : E.find? (fun e => e.name == n) with
      | none =>
        simp only [seedFoldAux, hfind]
        exact ih acc hacc hst2
      | some e =>
        simp only [seedFoldAux, hfind]
        split
        · exact ih acc hacc hst2
        · refine ih _ (fun p hp => ?_) hst2
          rcases List.mem_append.1 hp with h2 | h2
          · exact hacc p h2
          · rw [List.mem_singleton.1 h2]
            exact List.mem_of_find?_eq_some hfind

/-- C1 (amended): in the final order of any merged child list,
(a) an `End`- or `Unspecified`-hinted item precedes a `Begin`-hinted
sibling only when the stored order ranks both — the recorded ranking is
authoritative (spec section 8) — so with no stored order, or whenever
either item is new, `Begin` items float in front of the
`Unspecified`/`End` class; and (b) an item hinted `Before(X)` that is
not itself ranked by the stored order precedes the sibling named `X`
whenever `X` is present, carries no `Before`/`After` hint of its own,
and is not the item itself; cyclic `Before`/`After` requests may go
unhonored, and a stored-ranked item's violated `Before`/`After` hint is
flagged rather than allowed to override the stored order. -/
theorem hint_correctness_amended :
    (∀ (stored : List String) (entries : List Entry),
      ((computeOrder stored entries).1).Pairwise (fun a b =>
        (a.hint.type = .End ∨ a.hint.type = .Unspecified) →
        b.hint.type = .Begin → (a.name ∈ stored ∧ b.name ∈ stored))) ∧
    (∀ (stored : List String) (entries : List Entry) (eI eX : Entry),
      (entries.map Entry.name).Nodup → eI ∈ entries → eX ∈ entries →
      eI.name ∉ stored → eI.hint.type = .Before →
      eI.hint.name = eX.name → eI.name ≠ eX.name → isBA eX = false →
      Precedes eI eX (computeOrder stored entries).1) := by
  constructor
  · intro stored entries
    rw [computeOrder_fst_eq, placeBA]
    have hR1 : ∀ a b : Entry, ¬ b.hint.type = .Begin →
        ((a.hint.type = .End ∨ a.hint.type = .Unspecified) →
          b.hint.type = .Begin → (a.name ∈ stored ∧ b.name ∈ stored)) :=
      fun a b hb _ hbb => absurd hbb hb
    have hR2 : ∀ a b : Entry,
        ¬ (a.hint.type = .End ∨ a.hint.type = .Unspecified) →
        ((a.hint.type = .End ∨ a.hint.type = .Unspecified) →
          b.hint.type = .Begin → (a.name ∈ stored ∧ b.name ∈ stored)) :=
      fun a b ha haa _ => absurd haa ha
    apply placeBAF_pairwise hR1 hR2
    · intro e he
      exact (List.mem_filter.1 ((mem_sortByHint _).1 he)).2
    · rw [List.pairwise_append]
      refine ⟨?_, ?_, ?_⟩
      · rw [List.pairwise_append]
        refine ⟨?_, ?_, ?_⟩
        · apply foldl_placeOne_pairwise hR1 hR2
          apply pairwise_of_mem_rel
          intro a ha b hb _ _
          constructor
          · rcases seedFoldAux_name_mem stored [] ha with h2 | h2
            · simp at h2
            · exact h2
          · rcases seedFoldAux_name_mem stored [] hb with h2 | h2
            · simp at h2
            · exact h2
        · apply pairwise_of_mem_rel
          intro a _ b hb
          refine hR1 a b ?_
          have h2 := (List.mem_filter.1 hb).2
          rw [beq_iff_eq] at h2
          simp [h2]
        · intro a _ b hb
          refine hR1 a b ?_
          have h2 := (List.mem_filter.1 hb).2
          rw [beq_iff_eq] at h2
          simp [h2]
      · apply pairwise_of_mem_rel
        intro a _ b hb
        refine hR1 a b ?_
        have h2 := (List.mem_filter.1 hb).2
        rw [beq_iff_eq] at h2
        simp [h2]
      · intro a _ b hb
        refine hR1 a b ?_
        have h2 := (List.mem_filter.1 hb).2
        rw [beq_iff_eq] at h2
        simp [h2]
  · intro stored entries eI eX hnds hIe hXe hInew hIhint hIname hne hXBA
    rw [computeOrder_fst_eq]
    have hIBA : isBA eI = true := by rw [isBA, hIhint]; simp
    have hInews :
        eI ∈ entries.filter (fun e => !stored.contains e.name) := by
      refine List.mem_filter.2 ⟨hIe, ?_⟩
      simpa using hInew
    apply placeBA_establish entries hnds eI eX hIe hXe hIhint hIname hne
    · intro q hq
      rcases List.mem_append.1 hq with h2 | h2
      · rcases List.mem_append.1 h2 with h3 | h3
        · rcases foldl_placeOne_members _ _ h3 with h4 | h4
          · rcases seedFoldAux_mem stored [] h4 with h5 | h5
            · simp at h5
            · exact h5
          · exact List.mem_of_mem_filter (List.mem_of_mem_filter h4)
        · exact List.mem_of_mem_filter (List.mem_of_mem_filter h3)
      · exact List.mem_of_mem_filter (List.mem_of_mem_filter h2)
    · intro q hq
      exact List.mem_of_mem_filter
        (List.mem_of_mem_filter ((mem_sortByHint _).1 hq))
    · by_cases hst : eX.name ∈ stored
      · refine List.mem_append_left _ (List.mem_append_left _ ?_)
        exact foldl_placeOne_mem_acc _ _
          (seedFoldAux_covers hnds hXe stored [] (by simp) hst)
      · have hXnews :
            eX ∈ entries.filter (fun e => !stored.contains e.name) := by
          refine List.mem_filter.2 ⟨hXe, ?_⟩
          simpa using hst
        cases hty : eX.hint.type with
        | Before => exact absurd hXBA (by rw [isBA, hty]; simp)
        | After => exact absurd hXBA (by rw [isBA, hty]; simp)
        | Begin =>
          refine List.mem_append_left _ (List.mem_append_left _ ?_)
          exact foldl_placeOne_mem_of_mem _
            (List.mem_filter.2 ⟨hXnews, by rw [hty]; rfl⟩) _
        | Unspecified =>
          refine List.mem_append_left _ (List.mem_append_right _ ?_)
          exact List.mem_filter.2 ⟨hXnews, by rw [hty]; rfl⟩
        | End =>
          refine List.mem_append_right _ ?_
          exact List.mem_filter.2 ⟨hXnews, by rw [hty]; rfl⟩
    · exact (mem_sortByHint _).2 (List.mem_filter.2 ⟨hInews, hIBA⟩)

/-- Witness for `hint_correctness_amended`: with stored order `["a"]`
and candidates `b` (`Before("a")`, newly seen) and `a` (`End`, stored),
the computed order places `b` before `a`. -/
theorem hint_correctness_amended_witness :
    ((([⟨"b", ⟨.Before, "a"⟩, .leaf⟩, ⟨"a", ⟨.End, ""⟩, .leaf⟩] :
        List Entry).map Entry.name).Nodup ∧
      ("b" : String) ∉ (["a"] : List String) ∧
      (⟨"b", ⟨.Before, "a"⟩, .leaf⟩ : Entry).hint.type = .Before) ∧
    Precedes ⟨"b", ⟨.Before, "a"⟩, .leaf⟩ ⟨"a", ⟨.End, ""⟩, .leaf⟩
      (computeOrder ["a"]
        [⟨"b", ⟨.Before, "a"⟩, .leaf⟩, ⟨"a", ⟨.End, ""⟩, .leaf⟩]).1 := by
  refine ⟨⟨by decide, by decide, rfl⟩, ?_⟩
  exact hint_correctness_amended.2 ["a"]
    [⟨"b", ⟨.Before, "a"⟩, .leaf⟩, ⟨"a", ⟨.End, ""⟩, .leaf⟩]
    ⟨"b", ⟨.Before, "a"⟩, .leaf⟩ ⟨"a", ⟨.End, ""⟩, .leaf⟩
    (by decide) (by simp) (by simp) (by decide) rfl rfl (by decide) rfl

/-- The four hint-class filters of a list partition it, up to
permutation. -/
theorem filter_hint_partition_perm :
    ∀ l : List Entry,
    (l.filter (fun e => e.hint.type == .Begin)
      ++ l.filter (fun e => e.hint.type == .Unspecified)
      ++ l.filter (fun e => e.hint.type == .End)
      ++ l.filter isBA).Perm l := by
  intro l
  induction l with
  | nil => simp
  | cons e rest ih =>
    have ih2 : (rest.filter (fun e => e.hint.type == .Begin)
        ++ (rest.filter (fun e => e.hint.type == .Unspecified)
          ++ (rest.filter (fun e => e.hint.type == .End)
            ++ rest.filter isBA))).Perm rest := by
      simpa [List.append_assoc] using ih
    cases he : e.hint.type with
    | Begin =>
      have c1 : (e.hint.type == HintType.Begin) = true := by rw [he]; rfl
      have c2 : (e.hint.type == HintType.Unspecified) = false := by
        rw [he]; rfl
      have c3 : (e.hint.type == HintType.End) = false := by rw [he]; rfl
      have c4 : isBA e = false := by rw [isBA, he]; rfl
      simp only [List.filter_cons, c1, c2, c3, c4, eq_self_iff_true,
        Bool.false_eq_true, if_true, if_false, List.cons_append,
        List.append_assoc]
      exact ih2.cons e
    | Unspecified =>
      have c1 : (e.hint.type == HintType.Begin) = false := by rw [he]; rfl
      have c2 : (e.hint.type == HintType.Unspecified) = true := by
        rw [he]; rfl
      have c3 : (e.hint.type == HintType.End) = false := by rw [he]; rfl
      have c4 : isBA e = false := by rw [isBA, he]; rfl
      simp only [List.filter_cons, c1, c2, c3, c4, eq_self_iff_true,
        Bool.false_eq_true, if_true, if_false, List.cons_append,
        List.append_assoc]
      exact List.perm_middle.trans (ih2.cons e)
    | End =>
      have c1 : (e.hint.type == HintType.Begin) = false := by rw [he]; rfl
      have c2 : (e.hint.type == HintType.Unspecified) = false := by
        rw [he]; rfl
      have c3 : (e.hint.type == HintType.End) = true := by rw [he]; rfl
      have c4 : isBA e = false := by rw [isBA, he]; rfl
      simp only [List.filter_cons, c1, c2, c3, c4, eq_self_iff_true,
        Bool.false_eq_true, if_true, if_false, List.cons_append,
        List.append_assoc]
      exact (List.Perm.append_left _ List.perm_middle).trans
        (List.perm_middle.trans (ih2.cons e))
    | Before =>
      have c1 : (e.hint.type == HintType.Begin) = false := by rw [he]; rfl
      have c2 : (e.hint.type == HintType.Unspecified) = false := by
        rw [he]; rfl
      have c3 : (e.hint.type == HintType.End) = false := by rw [he]; rfl
      have c4 : isBA e = true := by rw [isBA, he]; rfl
      simp only [List.filter_cons, c1, c2, c3, c4, eq_self_iff_true,
        Bool.false_eq_true, if_true, if_false, List.cons_append,
        List.append_assoc]
      exact (List.Perm.append_left _
          ((List.Perm.append_left _ List.perm_middle).trans
            List.perm_middle)).trans
        (List.perm_middle.trans (ih2.cons e))
    | After =>
      have c1 : (e.hint.type == HintType.Begin) = false := by rw [he]; rfl
      have c2 : (e.hint.type == HintType.Unspecified) = false := by
        rw [he]; rfl
      have c3 : (e.hint.type == HintType.End) = false := by rw [he]; rfl
      have c4 : isBA e = true := by rw [isBA, he]; rfl
      simp only [List.filter_cons, c1, c2, c3, c4, eq_self_iff_true,
        Bool.false_eq_true, if_true, if_false, List.cons_append,
        List.append_assoc]
      exact (List.Perm.append_left _
          ((List.Perm.append_left _ List.perm_middle).trans
            List.perm_middle)).trans
        (List.perm_middle.trans (ih2.cons e))

/-- `computeOrder` permutes the seeded stored entries followed by the
new entries: placement moves items around but never drops or duplicates. -/
theorem computeOrder_perm (stored : List String) (E : List Entry) :
    ((computeOrder stored E).1).Perm
      (seedFoldAux E [] stored ++
        E.filter (fun e => !stored.contains e.name)) := by
  rw [computeOrder_fst_eq, placeBA]
  refine (placeBAF_perm _ _ _ _).trans ?_
  refine List.Perm.trans
    (List.Perm.append_left _ (sortByHint_perm _)) ?_
  refine List.Perm.trans
    (List.Perm.append_right _
      (List.Perm.append_right _
        (List.Perm.append_right _ (foldl_placeOne_perm _ _)))) ?_
  simp only [List.append_assoc]
  refine List.Perm.append_left _ ?_
  have h := filter_hint_partition_perm
    (E.filter (fun e => !stored.contains e.name))
  simpa [List.append_assoc] using h

/-- Every entry of a computed order came from the candidate list. -/
theorem computeOrder_members {stored : List String} {E : List Entry}
    {q : Entry} (h : q ∈ (computeOrder stored E).1) : q ∈ E := by
  have h2 := (computeOrder_perm stored E).mem_iff.1 h
  rcases List.mem_append.1 h2 with h3 | h3
  · rcases seedFoldAux_mem stored [] h3 with h4 | h4
    · simp at h4
    · exact h4
  · exact List.mem_of_mem_filter h3

/-- Every candidate appears in the computed order (with distinct
candidate names). -/
theorem computeOrder_covers {stored : List String} {E : List Entry}
    (hnd : (E.map Entry.name).Nodup) {q : Entry} (hq : q ∈ E) :
    q ∈ (computeOrder stored E).1 := by
  apply (computeOrder_perm stored E).mem_iff.2
  by_cases hs : q.name ∈ stored
  · exact List.mem_append_left _
      (seedFoldAux_covers hnd hq stored [] (by simp) hs)
  · refine List.mem_append_right _ (List.mem_filter.2 ⟨hq, ?_⟩)
    simpa using hs

/-- A computed order has no repeated names (given distinct candidate
names). -/
theorem computeOrder_nodup {stored : List String} {E : List Entry}
    (hnd : (E.map Entry.name).Nodup) :
    (((computeOrder stored E).1).map Entry.name).Nodup := by
  have hperm := (computeOrder_perm stored E).map Entry.name
  refine hperm.nodup_iff.2 ?_
  rw [List.map_append, List.nodup_append]
  refine ⟨seedFoldAux_nodup stored [] (by simp), ?_, ?_⟩
  · exact List.Nodup.sublist ((List.filter_sublist E).map Entry.name) hnd
  · intro x hx hy
    rw [List.mem_map] at hx hy
    obtain ⟨p, hp, rfl⟩ := hx
    obtain ⟨r, hr, hreq⟩ := hy
    have h1 : p.name ∈ stored := by
      rcases seedFoldAux_name_mem stored [] hp with h2 | h2
      · simp at h2
      · exact h2
    rw [← hreq] at h1
    have h2 := (List.mem_filter.1 hr).2
    simp at h2
    exact h2 h1

/-- Seeding from exactly the names of a list of distinct candidates
reproduces that list. -/
theorem seedFold_reconstruct {E : List Entry}
    (hnd : (E.map Entry.name).Nodup) :
    ∀ (l acc : List Entry), (∀ q ∈ l, q ∈ E) →
    (((acc ++ l).map Entry.name)).Nodup →
    seedFoldAux E acc (l.map Entry.name) = acc ++ l := by
  intro l
  induction l with
  | nil => intro acc _ _; simp [seedFoldAux]
  | cons q rest ih =>
    intro acc hl hnd2
    rw [List.map_cons]
    have hq : q ∈ E := hl q (List.mem_cons_self _ _)
    simp only [seedFoldAux, find?_name_unique hnd hq]
    have hguard : (acc.any fun p => p.name == q.name) = false := by
      rw [List.any_eq_false]
      intro p hp hcon
      rw [List.map_append, List.nodup_append] at hnd2
      rw [beq_iff_eq] at hcon
      refine hnd2.2.2 (List.mem_map_of_mem _ hp) ?_
      rw [hcon]
      exact List.mem_map_of_mem _ (List.mem_cons_self _ _)
    rw [if_neg (by rw [hguard]; simp)]
    rw [ih (acc ++ [q]) (fun r hr => hl r (List.mem_cons_of_mem _ hr))
      (by rw [List.append_cons] at hnd2; exact hnd2)]
    simp

/-- When the stored order lists exactly the names of a previous computed
order, recomputation returns that very order, with no diagnostics. -/
theorem computeOrder_fixpoint {E : List Entry}
    (hnd : (E.map Entry.name).Nodup) {ord : List Entry}
    (hmem : ∀ q ∈ ord, q ∈ E) (hcov : ∀ q ∈ E, q ∈ ord)
    (hndo : ((ord.map Entry.name)).Nodup) :
    (computeOrder (ord.map Entry.name) E).1 = ord := by
  have hnews :
      E.filter (fun e => !(ord.map Entry.name).contains e.name) = [] := by
    rw [List.filter_eq_nil_iff]
    intro e he hcon
    rw [contains_of_mem (List.mem_map_of_mem Entry.name (hcov e he))]
      at hcon
    simp at hcon
  have hseed : seedFoldAux E [] (ord.map Entry.name) = ord := by
    have h2 := seedFold_reconstruct hnd ord [] hmem (by simpa using hndo)
    simpa using h2
  rw [computeOrder_fst_eq, hnews, hseed]
  simp [placeBA, placeBAF, sortByHint]

/-- A stored order covering every merged name reports no new names. -/
theorem hasNewNames_of_cover {merged ord : List Entry}
    (hcov : ∀ q ∈ merged, q ∈ ord) :
    hasNewNames (some (ord.map Entry.name)) merged = false := by
  simp only [hasNewNames, Option.isNone_some, Bool.false_or,
    Option.getD_some]
  rw [List.any_eq_false]
  intro e he hcon
  rw [contains_of_mem (List.mem_map_of_mem Entry.name (hcov e he))] at hcon
  simp at hcon

/-- Walking a child list writes the store only at keys below one of the
children's paths. -/
theorem visitEntries_writes_generic
    (f : Store → List String → List CFItem → List Event × Store × List Diag)
    (hf : ∀ (s : Store) (p : List String) (ch : List CFItem)
      (k : List String), (∀ t2 : List String, k ≠ p ++ t2) →
      ((f s p ch).2.1).get k = s.get k) :
    ∀ (es : List Entry) (path : List String) (s : Store) (k : List String),
    (∀ e ∈ es, ∀ t2 : List String, k ≠ (path ++ [e.name]) ++ t2) →
    ((visitEntries f path s es).2.1).get k = s.get k := by
  intro es
  induction es with
  | nil => intro path s k _; rfl
  | cons e rest ih =>
    intro path s k hk
    cases hpay : e.payload with
    | leaf =>
      simp only [visitEntries, hpay]
      exact ih path s k (fun q hq => hk q (List.mem_cons_of_mem _ hq))
    | group g ch =>
      simp only [visitEntries, hpay]
      rw [ih path _ k (fun q hq => hk q (List.mem_cons_of_mem _ hq))]
      exact hf s (path ++ [e.name]) ch k (hk e (List.mem_cons_self _ _))

/-- A level visit writes the store only at keys below its path. -/
theorem visitLevel_writes :
    ∀ (fuel : Nat) (s : Store) (path : List String) (items : List CFItem)
    (k : List String), (∀ t2 : List String, k ≠ path ++ t2) →
    ((visitLevel fuel s path items).2.1).get k = s.get k := by
  intro fuel
  induction fuel with
  | zero => intro s path items k _; rfl
  | succ fuel ih =>
    intro s path items k hk
    simp only [visitLevel]
    have hcond : ∀ e ∈ orderedOf s path items, ∀ t2 : List String,
        k ≠ (path ++ [e.name]) ++ t2 := by
      intro e _ t2 hc
      exact hk (e.name :: t2) (by rw [hc]; simp)
    rw [visitEntries_writes_generic (visitLevel fuel) ih _ _ _ _ hcond]
    rw [recordStep]
    split
    · exact Store.get_set_ne _ _ _ _ (by simpa using hk [])
    · rfl

/-- Replaying a child list from a store that agrees with the final store
of a previous walk (below the path) yields the same events and leaves
the store unchanged, given localized writes (`hw`) and replay stability
(`hs`) of the per-group visitation. -/
theorem visitEntries_stable_generic
    (f : Store → List String → List CFItem → List Event × Store × List Diag)
    (hw : ∀ (s : Store) (p : List String) (ch : List CFItem)
      (k : List String), (∀ t2 : List String, k ≠ p ++ t2) →
      ((f s p ch).2.1).get k = s.get k)
    (hs : ∀ (p : List String) (ch : List CFItem) (s s2 : Store),
      (∀ k : List String, (∃ t2 : List String, k = p ++ t2) →
        s2.get k = ((f s p ch).2.1).get k) →
      (f s2 p ch).1 = (f s p ch).1 ∧ (f s2 p ch).2.1 = s2) :
    ∀ (es : List Entry) (path : List String) (s s2 : Store),
    ((es.map Entry.name)).Nodup →
    (∀ k : List String, (∃ nm t2, k = path ++ nm :: t2) →
      s2.get k = ((visitEntries f path s es).2.1).get k) →
    (visitEntries f path s2 es).1 = (visitEntries f path s es).1 ∧
    (visitEntries f path s2 es).2.1 = s2 := by
  intro es
  induction es with
  | nil => intro path s s2 _ _; exact ⟨rfl, rfl⟩
  | cons e rest ih =>
    intro path s s2 hnd hagree
    rw [List.map_cons, List.nodup_cons] at hnd
    cases hpay : e.payload with
    | leaf =>
      have h2 := ih path s s2 hnd.2 (fun k hk => by
        rw [hagree k hk]
        simp only [visitEntries, hpay])
      constructor
      · simp only [visitEntries, hpay]
        rw [h2.1]
      · simp only [visitEntries, hpay]
        exact h2.2
    | group g ch =>
      have hcond1 : ∀ k : List String,
          (∃ t2 : List String, k = (path ++ [e.name]) ++ t2) →
          s2.get k = ((f s (path ++ [e.name]) ch).2.1).get k := by
        intro k hk
        obtain ⟨t2, hkt⟩ := hk
        rw [hagree k ⟨e.name, t2, by rw [hkt]; simp⟩]
        simp only [visitEntries, hpay]
        apply visitEntries_writes_generic f hw
        intro q hq t3 hc
        have hname : e.name = q.name :=
          child_prefix_inj ⟨t2, hkt.symm⟩ ⟨t3, hc.symm⟩
        refine hnd.1 ?_
        rw [hname]
        exact List.mem_map_of_mem Entry.name hq
      have hchild := hs (path ++ [e.name]) ch s s2 hcond1
      have hrest := ih path ((f s (path ++ [e.name]) ch).2.1) s2 hnd.2
        (fun k hk => by
          rw [hagree k hk]
          simp only [visitEntries, hpay])
      constructor
      · simp only [visitEntries, hpay]
        rw [hchild.1, hchild.2, hrest.1]
      · simp only [visitEntries, hpay]
        rw [hchild.2]
        exact hrest.2

/-- Replaying a level from a store that agrees with the final store of a
previous run of that level (at the path and below) yields the same
events and leaves the store unchanged. -/
theorem visitLevel_stable :
    ∀ (fuel : Nat) (path : List String) (items : List CFItem) (s s2 : Store),
    (∀ k : List String, (∃ t2 : List String, k = path ++ t2) →
      s2.get k = ((visitLevel fuel s path items).2.1).get k) →
    (visitLevel fuel s2 path items).1 = (visitLevel fuel s path items).1 ∧
    (visitLevel fuel s2 path items).2.1 = s2 := by
  intro fuel
  induction fuel with
  | zero => intro path items s s2 _; exact ⟨rfl, rfl⟩
  | succ fuel ih =>
    intro path items s s2 hagree
    have hmerged : ((mergedOf items).map Entry.name).Nodup :=
      dedupMerge_nodup (collectList items)
    have hs2path : ((visitLevel (fuel + 1) s path items).2.1).get path =
        (recordStep s path items).get path := by
      simp only [visitLevel]
      apply visitEntries_writes_generic (visitLevel fuel)
        (visitLevel_writes fuel)
      intro e _ t2 hc
      have hlen := congrArg List.length hc
      simp only [List.length_append, List.length_cons,
        List.length_nil] at hlen
      omega
    have hpath : s2.get path = (recordStep s path items).get path := by
      rw [hagree path ⟨[], by simp⟩]
      exact hs2path
    have hagree2 : ∀ k : List String, (∃ nm t2, k = path ++ nm :: t2) →
        s2.get k = ((visitEntries (visitLevel fuel) path
          (recordStep s path items) (orderedOf s path items)).2.1).get k := by
      intro k hk
      obtain ⟨nm, t2, hkt⟩ := hk
      rw [hagree k ⟨nm :: t2, hkt⟩]
      simp only [visitLevel]
    cases hn : hasNewNames (s.get path) (mergedOf items) with
    | false =>
      have hrec : recordStep s path items = s := by
        simp [recordStep, hn]
      have hget : s2.get path = s.get path := by rw [hpath, hrec]
      have hord : orderedOf s2 path items = orderedOf s path items := by
        simp only [orderedOf, hget]
      have hn2 : hasNewNames (s2.get path) (mergedOf items) = false := by
        rw [hget]; exact hn
      have hrec2 : recordStep s2 path items = s2 := by
        simp [recordStep, hn2]
      have hmain := visitEntries_stable_generic (visitLevel fuel)
        (visitLevel_writes fuel) ih (orderedOf s path items) path
        (recordStep s path items) s2 (computeOrder_nodup hmerged) hagree2
      constructor
      · simp only [visitLevel]
        rw [hord, hrec2]
        exact hmain.1
      · simp only [visitLevel]
        rw [hord, hrec2]
        exact hmain.2
    | true =>
      have hrec : recordStep s path items =
          s.set path ((orderedOf s path items).map (·.name)) := by
        simp [recordStep, hn]
      have hget : s2.get path =
          some ((orderedOf s path items).map Entry.name) := by
        rw [hpath, hrec]
        exact Store.get_set_self _ _ _
      have hE : (computeOrder ((orderedOf s path items).map Entry.name)
          (mergedOf items)).1 = orderedOf s path items :=
        computeOrder_fixpoint hmerged
          (fun q hq => computeOrder_members hq)
          (fun q hq => computeOrder_covers hmerged hq)
          (computeOrder_nodup hmerged)
      have hord : orderedOf s2 path items = orderedOf s path items := by
        have h3 : orderedOf s2 path items =
            (computeOrder ((orderedOf s path items).map Entry.name)
              (mergedOf items)).1 := by
          simp only [orderedOf, hget, Option.getD_some]
        rw [h3, hE]
      have hn2 : hasNewNames (s2.get path) (mergedOf items) = false := by
        rw [hget]
        exact hasNewNames_of_cover
          (fun q hq => computeOrder_covers hmerged hq)
      have hrec2 : recordStep s2 path items = s2 := by
        simp [recordStep, hn2]
      have hmain := visitEntries_stable_generic (visitLevel fuel)
        (visitLevel_writes fuel) ih (orderedOf s path items) path
        (recordStep s path items) s2 (computeOrder_nodup hmerged) hagree2
      constructor
      · simp only [visitLevel]
        rw [hord, hrec2]
        exact hmain.1
      · simp only [visitLevel]
        rw [hord, hrec2]
        exact hmain.2

/-- C5 (amended): visiting the same `(defaultTree, registryTree)` pair
twice without intervening registration produces an identical traversal
sequence of names, and the second visit leaves the ordering-preference
store unchanged, PROVIDED the `ComputedItem` factories produce the same
substitutes at both visitation instants (in particular, whenever the
trees contain no `ComputedItem`).  Without that proviso the claim fails
(`visit_idempotence_cex`): a factory is re-evaluated "each time the
ComputedItem is visited" and may substitute different items. -/
theorem visit_idempotent (t1 t2 : Nat) (s : Store)
    (defaultItems registryItems : List BaseItem)
    (h1 : expandList t2 defaultItems = expandList t1 defaultItems)
    (h2 : expandList t2 registryItems = expandList t1 registryItems) :
    (Visit t2 (Visit t1 s defaultItems registryItems).2.1
        defaultItems registryItems).1 =
      (Visit t1 s defaultItems registryItems).1 ∧
    (Visit t2 (Visit t1 s defaultItems registryItems).2.1
        defaultItems registryItems).2.1 =
      (Visit t1 s defaultItems registryItems).2.1 := by
  simp only [Visit, h1, h2]
  exact visitLevel_stable _ [] _ _ _ (fun k _ => rfl)

/-- Witness for `visit_idempotent`: a default tree holding a named group
with one leaf, a registry holding an `After`-hinted item, visited at
instants `0` and then `1`. -/
theorem visit_idempotent_witness :
    expandList 1 [BaseItem.group "Menu" unspecifiedHint none
        [BaseItem.single "A" unspecifiedHint]] =
      expandList 0 [BaseItem.group "Menu" unspecifiedHint none
        [BaseItem.single "A" unspecifiedHint]] ∧
    expandList 1 [BaseItem.single "B" ⟨.After, "A"⟩] =
      expandList 0 [BaseItem.single "B" ⟨.After, "A"⟩] ∧
    ((Visit 1 (Visit 0 emptyStore
          [BaseItem.group "Menu" unspecifiedHint none
            [BaseItem.single "A" unspecifiedHint]]
          [BaseItem.single "B" ⟨.After, "A"⟩]).2.1
        [BaseItem.group "Menu" unspecifiedHint none
          [BaseItem.single "A" unspecifiedHint]]
        [BaseItem.single "B" ⟨.After, "A"⟩]).1 =
      (Visit 0 emptyStore
        [BaseItem.group "Menu" unspecifiedHint none
          [BaseItem.single "A" unspecifiedHint]]
        [BaseItem.single "B" ⟨.After, "A"⟩]).1 ∧
    (Visit 1 (Visit 0 emptyStore
          [BaseItem.group "Menu" unspecifiedHint none
            [BaseItem.single "A" unspecifiedHint]]
          [BaseItem.single "B" ⟨.After, "A"⟩]).2.1
        [BaseItem.group "Menu" unspecifiedHint none
          [BaseItem.single "A" unspecifiedHint]]
        [BaseItem.single "B" ⟨.After, "A"⟩]).2.1 =
      (Visit 0 emptyStore
        [BaseItem.group "Menu" unspecifiedHint none
          [BaseItem.single "A" unspecifiedHint]]
        [BaseItem.single "B" ⟨.After, "A"⟩]).2.1) :=
  ⟨rfl, rfl, visit_idempotent 0 1 emptyStore
    [BaseItem.group "Menu" unspecifiedHint none
      [BaseItem.single "A" unspecifiedHint]]
    [BaseItem.single "B" ⟨.After, "A"⟩] rfl rfl⟩

/-- Witness for `persisted_stability` at concrete names. -/
theorem persisted_stability_witness :
    ("A" : String) ≠ "B" ∧
    (computeOrder ["A", "B", "C"]
      [⟨"A", ⟨.Begin, ""⟩, .leaf⟩, ⟨"B", ⟨.End, ""⟩, .leaf⟩,
       ⟨"C", unspecifiedHint, .leaf⟩, ⟨"D", unspecifiedHint, .leaf⟩]).1 =
      [⟨"A", ⟨.Begin, ""⟩, .leaf⟩, ⟨"B", ⟨.End, ""⟩, .leaf⟩,
       ⟨"C", unspecifiedHint, .leaf⟩, ⟨"D", unspecifiedHint, .leaf⟩] :=
  ⟨by decide,
    persisted_stability "A" "B" "C" "D" ⟨.Begin, ""⟩ ⟨.End, ""⟩ unspecifiedHint
      .leaf .leaf .leaf .leaf
      (by decide) (by decide) (by decide) (by decide) (by decide) (by decide)⟩

end Registry
